import Mathlib

/-!
Shallow embedding of `src/graph.rs` (niax/rust-graph): a directed-graph
container with node/edge insertion, adjacency queries, breadth-first
traversal and Dijkstra's shortest path.

Modelling conventions:
* Rust `Vec` becomes `List`; `uint` node identifiers and costs become `Nat`
  (the source constrains the cost type `V` to `Unsigned`, so costs are
  non-negative by construction).
* An operation that can panic (out-of-bounds indexing, `unwrap` of `None`)
  returns `Option _`, with `none` marking the panic.
* The `HashSet` of already-enqueued identifiers becomes `Finset Nat`
  (only membership is ever observed).
* The `PriorityQueue` with the reversed `Ord` on `NodeCost` (a min-heap on
  `cost`; the `node` field is never compared) becomes a list whose `popMin`
  extracts the first entry of minimal cost.  Which entry among several of
  equal minimal cost a binary heap yields is unspecified; `popMin` fixes one
  such resolution, and no theorem below depends on the choice.
* The unbounded `while` loops of `visit_breadth_first` and of the path
  reconstruction in `shortest_path` are given explicit fuel
  (`totalDests g + 1` resp. `node_count + 1`); the theorems prove the fuel
  is never exhausted on the stated inputs, so the embedding agrees with the
  source loop there.  The Dijkstra main loop is defined by well-founded
  recursion (no fuel), matching the source loop exactly.
-/

namespace RustGraph

/-- Directed edge (`Edge<V>` in graph.rs): payload `data` and destination
node identifier `dest`. -/
structure Edge (V : Type) where
  data : V
  dest : Nat
deriving DecidableEq, Repr

/-- The graph container (`Graph<T,V>` in graph.rs): a vector `nodes` of node
payloads and a parallel vector `edges` of outgoing-edge lists. -/
structure Graph (T V : Type) where
  nodes : List T
  edges : List (List (Edge V))
deriving DecidableEq, Repr

namespace Graph

variable {T V : Type}

/-- `Graph::new()`. -/
def new : Graph T V := ⟨[], []⟩

/-- `Graph::node_count()` — `self.nodes.len()`. -/
def node_count (g : Graph T V) : Nat := g.nodes.length

/-- `Graph::get(index)` — `&self.nodes[index]`; indexing panics (`none`)
when `index` is out of bounds. -/
def get (g : Graph T V) (index : Nat) : Option T := g.nodes[index]?

/-- `Graph::insert(value)` — appends the node, appends an empty edge list,
returns the updated graph together with the new identifier
(`= self.nodes.len()` before the push).  Never fails. -/
def insert (g : Graph T V) (value : T) : Graph T V × Nat :=
  (⟨g.nodes ++ [value], g.edges ++ [[]]⟩, g.nodes.length)

/-- `Graph::connect(from_index, to_index, data)` — appends an edge to
`from_index`'s edge list; `self.edges.get_mut(from_index)` panics (`none`)
when `from_index` is out of bounds.  The destination is not validated. -/
def connect (g : Graph T V) (from_index to_index : Nat) (data : V) :
    Option (Graph T V) :=
  match g.edges[from_index]? with
  | some edge_list =>
      some ⟨g.nodes, g.edges.set from_index (edge_list ++ [⟨data, to_index⟩])⟩
  | none => none

/-- `Graph::connections(for_node)` — `&self.edges[for_node]`; panics
(`none`) when `for_node` is out of bounds. -/
def connections (g : Graph T V) (for_node : Nat) : Option (List (Edge V)) :=
  g.edges[for_node]?

/-- `Graph::connection(from_index, to_index)` — scans `from_index`'s edge
list in insertion order and returns the first edge whose `dest` equals
`to_index` (`none` inside when there is no such edge).  The outer `Option`
is the panic of `connections` on an out-of-bounds `from_index`. -/
def connection (g : Graph T V) (from_index to_index : Nat) :
    Option (Option (Edge V)) :=
  (g.connections from_index).map (fun es => es.find? (fun e => e.dest == to_index))

/-- `Graph::connected(from_index, to_index)` —
`self.connection(from_index, to_index).is_some()`. -/
def connected (g : Graph T V) (from_index to_index : Nat) : Option Bool :=
  (g.connection from_index to_index).map Option.isSome

/-- `Graph::iter()` — the node payloads in identifier order. -/
def iter (g : Graph T V) : List T := g.nodes

/-- `Graph::contains(value)` (via `contains_ref`) —
`self.nodes.iter().position(|v| v == value)`: identifier of the first node
whose payload equals `value`. -/
def contains [DecidableEq T] (g : Graph T V) (value : T) : Option Nat :=
  g.nodes.findIdx? (fun v => v == value)

/-- `Graph::insert_all(values)` — repeated `insert`, collecting the new
identifiers in order. -/
def insert_all (g : Graph T V) (values : List T) : Graph T V × List Nat :=
  values.foldl
    (fun acc value =>
      let step := acc.1.insert value
      (step.1, acc.2 ++ [step.2]))
    (g, [])

/-- `Graph::connect_all(connections)` — repeated `connect`, in order;
propagates the panic of any individual `connect`. -/
def connect_all (g : Graph T V) (conns : List (Nat × Nat × V)) :
    Option (Graph T V) :=
  conns.foldlM (fun acc c => acc.connect c.1 c.2.1 c.2.2) g

/-- The adjacency list actually used for reachability statements: the edge
list of `u`, empty for an out-of-range `u`. -/
def edgesOf (g : Graph T V) (u : Nat) : List (Edge V) := g.edges.getD u []

/-- Well-formedness from the spec's data model: the two vectors are
parallel, and every stored edge destination is a valid identifier. -/
def WF (g : Graph T V) : Prop :=
  g.edges.length = g.nodes.length ∧
    ∀ l ∈ g.edges, ∀ e ∈ l, e.dest < g.nodes.length

end Graph

/-! ## Breadth-first traversal (`Graph::visit_breadth_first`)

The source keeps a FIFO `queue : Vec<NodeIdentifier>` (pop via `remove(0)`,
push via `push`) and a `visited : HashSet<NodeIdentifier>`; both `from_index`
and every destination are inserted into `visited` at enqueue time.  Each
iteration dequeues the head, calls the visitor, and then — regardless of the
visitor's return value — pushes every not-yet-seen destination of the head's
edge list, in stored order; the loop condition re-checks `should_continue`.

The embedding takes a pure visitor `p : Nat → T → Bool` and returns the trace
of visited identifiers together with the final queue and final visited set
(`none` = panic of `self.get(current)` / `self.connections(current)`, or fuel
exhaustion, which the theorems rule out). -/

section BFS

variable {T V : Type}

/-- The inner `for edge in self.connections(current).iter()` loop: push each
destination not yet in `visited` onto the queue, inserting it into `visited`
at enqueue time. -/
def enqueueStep : List Nat × Finset Nat → List (Edge V) → List Nat × Finset Nat
  | qv, [] => qv
  | qv, e :: es =>
      if e.dest ∈ qv.2 then enqueueStep qv es
      else enqueueStep (qv.1 ++ [e.dest], insert e.dest qv.2) es

/-- All edge destinations stored anywhere in the graph (with multiplicity);
an upper bound on how many identifiers the traversal can ever enqueue beyond
the start. -/
def Graph.destsList (g : Graph T V) : List Nat :=
  (g.edges.map (fun l => l.map Edge.dest)).flatten

/-- The same destinations as a finite set (used by the fuel argument). -/
def Graph.allDests (g : Graph T V) : Finset Nat := g.destsList.toFinset

/-- The `while queue.len() > 0 && should_continue` loop of
`visit_breadth_first`.  Returns `(trace, final queue, final visited)`. -/
def bfsLoop (g : Graph T V) (p : Nat → T → Bool) :
    Nat → List Nat → Finset Nat → Option (List Nat × List Nat × Finset Nat)
  | _, [], visited => some ([], [], visited)
  | 0, _ :: _, _ => none
  | fuel + 1, current :: rest, visited =>
      match g.get current, g.connections current with
      | some payload, some es =>
          let sc := p current payload
          let qv := enqueueStep (rest, visited) es
          if sc then
            match bfsLoop g p fuel qv.1 qv.2 with
            | some (tr, qf, vf) => some (current :: tr, qf, vf)
            | none => none
          else some ([current], qv.1, qv.2)
      | _, _ => none

/-- `Graph::visit_breadth_first(from_index, visitor)`: queue seeded with
`from_index`, `visited` seeded with `from_index`.  The fuel
`destsList.length + 1` bounds the number of loop iterations (each identifier
is enqueued at most once); the theorems below show it is never exhausted. -/
def Graph.visit_breadth_first (g : Graph T V) (from_index : Nat)
    (p : Nat → T → Bool) : Option (List Nat × List Nat × Finset Nat) :=
  bfsLoop g p (g.destsList.length + 1) [from_index] {from_index}

/-- `Graph::bfs(from_node, wanted)`: breadth-first search for the first node
whose payload equals `wanted`, implemented on top of the traversal by
returning `false` from the visitor at a match.  The source accumulates the
result in a closure variable; the embedding reads it off the trace (the match,
if any, is the node at which the visitor returned `false`, which is the last
visited node). -/
def Graph.bfs [DecidableEq T] (g : Graph T V) (from_node : Nat) (wanted : T) :
    Option (Option Nat) :=
  (g.visit_breadth_first from_node (fun _ value => !(value == wanted))).map
    (fun r => r.1.getLast?.bind
      (fun last => if g.get last = some wanted then some last else none))

end BFS

/-! ## Single-step adjacency and reachability -/

section Reach

variable {T V : Type}

/-- One directed step: `b` is the destination of some edge stored in `a`'s
adjacency list (such an `a` is necessarily a valid identifier, since
out-of-range identifiers have an empty `edgesOf`). -/
def Adj (g : Graph T V) (a b : Nat) : Prop :=
  ∃ e ∈ g.edgesOf a, e.dest = b

/-- `StepN g a b k`: there is a directed path of exactly `k` edges from `a`
to `b`. -/
inductive StepN (g : Graph T V) (a : Nat) : Nat → Nat → Prop
  | zero : StepN g a a 0
  | succ {b c k} : StepN g a b k → Adj g b c → StepN g a c (k + 1)

/-- `b` is reachable from `a` by a directed path. -/
def Reachable (g : Graph T V) (a b : Nat) : Prop := ∃ k, StepN g a b k

/-- `d` is the breadth-first depth of `v` from `s`: the least number of edges
of any directed path from `s` to `v`. -/
def IsBfsDepth (g : Graph T V) (s v d : Nat) : Prop :=
  StepN g s v d ∧ ∀ d' < d, ¬StepN g s v d'

end Reach

/-! ## Dijkstra's shortest path (`Graph::shortest_path`)

The source keeps `dist : Vec<Option<V>>`, `prev : Vec<Option<NodeIdentifier>>`
and a `PriorityQueue<NodeCost<V>>` whose reversed `Ord` (comparing costs only)
makes `pop` return an entry of minimal cost.  Costs are `Nat` here (the source
requires `V: Unsigned`). -/

section Dijkstra

variable {T : Type}

/-- `NodeCost` from graph.rs (field order as in the source pushes). -/
structure NodeCost where
  node : Nat
  cost : Nat
deriving DecidableEq, Repr

/-- The mutable state of the main loop. -/
structure DState where
  dist : List (Option Nat)
  prev : List (Option Nat)
  pq : List NodeCost
deriving DecidableEq, Repr

/-- `pq.pop()` for the reversed-order heap: remove and return the first
entry of minimal cost (`none` iff the queue is empty). -/
def popMin : List NodeCost → Option (NodeCost × List NodeCost)
  | [] => none
  | x :: xs =>
      match popMin xs with
      | none => some (x, [])
      | some (m, rest) =>
          if x.cost ≤ m.cost then some (x, xs) else some (m, x :: rest)

/-- The body of `for edge in self.connections(current.node).iter()` for one
edge: read `dist[edge.dest]` (panic `none` when the destination is out of
range), and on a strict improvement (or a first path) update `dist` and
`prev` and push the new `NodeCost`. -/
def relaxEdge (cur : NodeCost) (st : DState) (e : Edge Nat) : Option DState :=
  match st.dist[e.dest]? with
  | none => none
  | some dcur =>
      let cost_to_node := cur.cost + e.data
      let should_update_cost : Bool :=
        match dcur with
        | some c => decide (cost_to_node < c)
        | none => true
      if should_update_cost then
        some ⟨st.dist.set e.dest (some cost_to_node),
              st.prev.set e.dest (some cur.node),
              st.pq ++ [⟨e.dest, cost_to_node⟩]⟩
      else some st

/-- The whole edge loop, left to right over the stored edge list. -/
def relaxAll (cur : NodeCost) : DState → List (Edge Nat) → Option DState
  | st, [] => some st
  | st, e :: es =>
      match relaxEdge cur st e with
      | none => none
      | some st' => relaxAll cur st' es

/-- Number of `none` entries of the `dist` vector (first component of the
termination measure: it never increases, and strictly decreases when a node
gets its first distance). -/
def countNone (l : List (Option Nat)) : Nat := (l.filter Option.isNone).length

/-- Sum of the recorded distances (second component of the termination
measure: strict improvements on already-recorded distances decrease it). -/
def sumSome (l : List (Option Nat)) : Nat := (l.filterMap id).sum

/-- Strict decrease of the `(countNone, sumSome)` part of the measure. -/
def MLess (d' d : List (Option Nat)) : Prop :=
  countNone d' < countNone d ∨
    (countNone d' = countNone d ∧ sumSome d' < sumSome d)

theorem countNone_cons_none (l : List (Option Nat)) :
    countNone (none :: l) = countNone l + 1 := by
  simp [countNone, List.filter_cons]

theorem countNone_cons_some (y : Nat) (l : List (Option Nat)) :
    countNone (some y :: l) = countNone l := by
  simp [countNone, List.filter_cons]

theorem sumSome_cons_none (l : List (Option Nat)) :
    sumSome (none :: l) = sumSome l := by
  simp [sumSome, List.filterMap_cons]

theorem sumSome_cons_some (y : Nat) (l : List (Option Nat)) :
    sumSome (some y :: l) = y + sumSome l := by
  simp [sumSome, List.filterMap_cons]

theorem countNone_set_of_none (l : List (Option Nat)) (i c : Nat)
    (h : l[i]? = some none) :
    countNone (l.set i (some c)) + 1 = countNone l := by
  induction l generalizing i with
  | nil => simp at h
  | cons x xs ih =>
      cases i with
      | zero =>
          simp only [List.getElem?_cons_zero, Option.some_inj] at h
          subst h
          simp [List.set_cons_zero, countNone_cons_none, countNone_cons_some]
      | succ j =>
          simp only [List.getElem?_cons_succ] at h
          have := ih j h
          cases x with
          | none =>
              simp only [List.set_cons_succ, countNone_cons_none]
              omega
          | some y =>
              simp only [List.set_cons_succ, countNone_cons_some]
              omega

theorem countNone_set_of_some (l : List (Option Nat)) (i c c₀ : Nat)
    (h : l[i]? = some (some c₀)) :
    countNone (l.set i (some c)) = countNone l := by
  induction l generalizing i with
  | nil => simp at h
  | cons x xs ih =>
      cases i with
      | zero =>
          simp only [List.getElem?_cons_zero, Option.some_inj] at h
          subst h
          simp [List.set_cons_zero, countNone_cons_some]
      | succ j =>
          simp only [List.getElem?_cons_succ] at h
          have := ih j h
          cases x with
          | none =>
              simp only [List.set_cons_succ, countNone_cons_none]
              omega
          | some y =>
              simp only [List.set_cons_succ, countNone_cons_some]
              omega

theorem sumSome_set_of_some (l : List (Option Nat)) (i c c₀ : Nat)
    (h : l[i]? = some (some c₀)) :
    sumSome (l.set i (some c)) + c₀ = sumSome l + c := by
  induction l generalizing i with
  | nil => simp at h
  | cons x xs ih =>
      cases i with
      | zero =>
          simp only [List.getElem?_cons_zero, Option.some_inj] at h
          subst h
          simp only [List.set_cons_zero, sumSome_cons_some]
          omega
      | succ j =>
          simp only [List.getElem?_cons_succ] at h
          have := ih j h
          cases x with
          | none =>
              simp only [List.set_cons_succ, sumSome_cons_none]
              omega
          | some y =>
              simp only [List.set_cons_succ, sumSome_cons_some]
              omega

/-- The updated state produced by a successful relaxation of edge `e` from
`cur`. -/
def relaxUpdate (cur : NodeCost) (st : DState) (e : Edge Nat) : DState :=
  ⟨st.dist.set e.dest (some (cur.cost + e.data)),
   st.prev.set e.dest (some cur.node),
   st.pq ++ [⟨e.dest, cur.cost + e.data⟩]⟩

/-- Inversion for one relaxation step. -/
theorem relaxEdge_inv {cur : NodeCost} {st : DState} {e : Edge Nat}
    {st' : DState} (h : relaxEdge cur st e = some st') :
    (∃ c, st.dist[e.dest]? = some (some c) ∧ ¬cur.cost + e.data < c ∧
      st' = st) ∨
    ((st.dist[e.dest]? = some none ∨
        ∃ c, st.dist[e.dest]? = some (some c) ∧ cur.cost + e.data < c) ∧
      st' = relaxUpdate cur st e) := by
  unfold relaxEdge at h
  split at h
  · cases h
  · rename_i dcur hd
    cases dcur with
    | none =>
        simp only [Option.some_inj, if_pos] at h
        exact Or.inr ⟨Or.inl hd, h.symm⟩
    | some c =>
        by_cases hc : cur.cost + e.data < c
        · simp only [hc, decide_True, if_pos, Option.some_inj] at h
          exact Or.inr ⟨Or.inr ⟨c, hd, hc⟩, h.symm⟩
        · simp only [hc, decide_False, Bool.false_eq_true, if_false,
            Option.some_inj] at h
          exact Or.inl ⟨c, hd, hc, h.symm⟩

theorem relaxEdge_measure {cur : NodeCost} {st : DState} {e : Edge Nat}
    {st' : DState} (h : relaxEdge cur st e = some st') :
    st' = st ∨ MLess st'.dist st.dist := by
  rcases relaxEdge_inv h with ⟨c, _, _, rfl⟩ | ⟨hd, rfl⟩
  · exact Or.inl rfl
  · right
    rcases hd with hd | ⟨c, hd, hc⟩
    · left
      have := countNone_set_of_none st.dist e.dest (cur.cost + e.data) hd
      simp only [relaxUpdate]
      omega
    · right
      refine ⟨countNone_set_of_some st.dist e.dest _ c hd, ?_⟩
      have := sumSome_set_of_some st.dist e.dest (cur.cost + e.data) c hd
      simp only [relaxUpdate]
      omega

theorem MLess_trans {a b c : List (Option Nat)} (h1 : MLess a b)
    (h2 : MLess b c) : MLess a c := by
  unfold MLess at *
  omega

theorem relaxAll_measure {cur : NodeCost} {es : List (Edge Nat)} :
    ∀ {st st' : DState}, relaxAll cur st es = some st' →
      st' = st ∨ MLess st'.dist st.dist := by
  induction es with
  | nil =>
      intro st st' h
      simp only [relaxAll, Option.some_inj] at h
      exact Or.inl h.symm
  | cons e es ih =>
      intro st st' h
      unfold relaxAll at h
      cases hr : relaxEdge cur st e with
      | none => rw [hr] at h; exact absurd h (by simp)
      | some st₁ =>
          rw [hr] at h
          rcases ih h with rfl | h2
          · exact relaxEdge_measure hr
          · rcases relaxEdge_measure hr with rfl | h1
            · exact Or.inr h2
            · exact Or.inr (MLess_trans h2 h1)

theorem popMin_eq_none {pq : List NodeCost} :
    popMin pq = none ↔ pq = [] := by
  cases pq with
  | nil => simp [popMin]
  | cons x xs =>
      unfold popMin
      split <;> simp
      split <;> simp

theorem popMin_perm :
    ∀ {pq : List NodeCost} {m rest}, popMin pq = some (m, rest) →
      (m :: rest).Perm pq := by
  intro pq
  induction pq with
  | nil => intro m rest h; simp [popMin] at h
  | cons x xs ih =>
      intro m rest h
      unfold popMin at h
      split at h
      · rename_i hp
        obtain rfl : xs = [] := popMin_eq_none.mp hp
        simp only [Option.some_inj, Prod.mk.injEq] at h
        obtain ⟨rfl, rfl⟩ := h
        exact .refl _
      · rename_i m' rest' hp
        split at h <;>
          (simp only [Option.some_inj, Prod.mk.injEq] at h
           obtain ⟨rfl, rfl⟩ := h)
        · exact .refl _
        · exact (List.Perm.swap _ _ _).trans ((ih hp).cons x)

theorem popMin_min :
    ∀ {pq : List NodeCost} {m rest}, popMin pq = some (m, rest) →
      ∀ x ∈ pq, m.cost ≤ x.cost := by
  intro pq
  induction pq with
  | nil => intro m rest h; simp [popMin] at h
  | cons x xs ih =>
      intro m rest h y hy
      unfold popMin at h
      split at h
      · rename_i hp
        obtain rfl : xs = [] := popMin_eq_none.mp hp
        simp only [Option.some_inj, Prod.mk.injEq] at h
        obtain ⟨rfl, rfl⟩ := h
        simp only [List.mem_singleton] at hy
        subst hy
        exact le_refl _
      · rename_i m' rest' hp
        rename_i hiflast
        split at h <;>
          (simp only [Option.some_inj, Prod.mk.injEq] at h
           obtain ⟨rfl, rfl⟩ := h)
        · rename_i hc
          rcases List.mem_cons.mp hy with rfl | hy'
          · exact le_refl _
          · exact le_trans hc (ih hp y hy')
        · rename_i hc
          rcases List.mem_cons.mp hy with rfl | hy'
          · exact le_of_lt (lt_of_not_le hc)
          · exact ih hp y hy'

/-- The `while pq.len() > 0` loop of `shortest_path`, by well-founded
recursion on `(countNone dist, sumSome dist, pq.length)`: `none` is a panic
(out-of-range index inside the loop). -/
def dijkstraLoop (g : Graph T Nat) (to_node : Nat) (st : DState) :
    Option DState :=
  match hpop : popMin st.pq with
  | none => some st
  | some (cur, rest) =>
      if cur.node = to_node then some { st with pq := rest }
      else
        match g.edges[cur.node]? with
        | none => none
        | some es =>
            match hrel : relaxAll cur { st with pq := rest } es with
            | none => none
            | some st' => dijkstraLoop g to_node st'
termination_by (countNone st.dist, sumSome st.dist, st.pq.length)
decreasing_by
  have hlen : rest.length + 1 = st.pq.length := (popMin_perm hpop).length_eq
  rcases relaxAll_measure hrel with rfl | hm
  · refine Prod.Lex.right _ (Prod.Lex.right _ ?_)
    show rest.length < st.pq.length
    omega
  · have hm' : MLess st'.dist st.dist := hm
    rcases hm' with h1 | ⟨h1, h2⟩
    · exact Prod.Lex.left _ _ h1
    · exact h1 ▸ Prod.Lex.right _ (Prod.Lex.left _ _ h2)

/-- Fuel-indexed version of `dijkstraLoop`, used only to evaluate concrete
runs: outer `none` = fuel exhausted, `some none` = panic, `some (some st)` =
normal end of the loop. -/
def dijkstraLoopF (g : Graph T Nat) (to_node : Nat) :
    Nat → DState → Option (Option DState)
  | 0, _ => none
  | fuel + 1, st =>
      match popMin st.pq with
      | none => some (some st)
      | some (cur, rest) =>
          if cur.node = to_node then some (some { st with pq := rest })
          else
            match g.edges[cur.node]? with
            | none => some none
            | some es =>
                match relaxAll cur { st with pq := rest } es with
                | none => some none
                | some st' => dijkstraLoopF g to_node fuel st'

theorem dijkstraLoop_pop_none {g : Graph T Nat} {to_node : Nat} {st : DState}
    (hpop : popMin st.pq = none) :
    dijkstraLoop g to_node st = some st := by
  rw [dijkstraLoop]
  split
  · rfl
  · rename_i cur rest hpop2
    rw [hpop] at hpop2
    cases hpop2

theorem dijkstraLoop_break {g : Graph T Nat} {to_node : Nat} {st : DState}
    {cur : NodeCost} {rest : List NodeCost}
    (hpop : popMin st.pq = some (cur, rest)) (hto : cur.node = to_node) :
    dijkstraLoop g to_node st = some { st with pq := rest } := by
  rw [dijkstraLoop]
  split
  · rename_i hpop2
    rw [hpop2] at hpop
    cases hpop
  · rename_i cur2 rest2 hpop2
    rw [hpop2] at hpop
    simp only [Option.some_inj, Prod.mk.injEq] at hpop
    obtain ⟨rfl, rfl⟩ := hpop
    rw [if_pos hto]

theorem dijkstraLoop_conn_none {g : Graph T Nat} {to_node : Nat} {st : DState}
    {cur : NodeCost} {rest : List NodeCost}
    (hpop : popMin st.pq = some (cur, rest)) (hto : cur.node ≠ to_node)
    (hconn : g.edges[cur.node]? = none) :
    dijkstraLoop g to_node st = none := by
  rw [dijkstraLoop]
  split
  · rename_i hpop2
    rw [hpop2] at hpop
    cases hpop
  · rename_i cur2 rest2 hpop2
    rw [hpop2] at hpop
    simp only [Option.some_inj, Prod.mk.injEq] at hpop
    obtain ⟨rfl, rfl⟩ := hpop
    rw [if_neg hto]
    split
    · rfl
    · rename_i es hes
      rw [hconn] at hes
      cases hes

theorem dijkstraLoop_relax_none {g : Graph T Nat} {to_node : Nat}
    {st : DState} {cur : NodeCost} {rest : List NodeCost}
    {es : List (Edge Nat)}
    (hpop : popMin st.pq = some (cur, rest)) (hto : cur.node ≠ to_node)
    (hconn : g.edges[cur.node]? = some es)
    (hrel : relaxAll cur { st with pq := rest } es = none) :
    dijkstraLoop g to_node st = none := by
  rw [dijkstraLoop]
  split
  · rename_i hpop2
    rw [hpop2] at hpop
    cases hpop
  · rename_i cur2 rest2 hpop2
    rw [hpop2] at hpop
    simp only [Option.some_inj, Prod.mk.injEq] at hpop
    obtain ⟨rfl, rfl⟩ := hpop
    rw [if_neg hto]
    split
    · rename_i hes
      rw [hconn] at hes
    · rename_i es2 hes
      rw [hconn] at hes
      simp only [Option.some_inj] at hes
      subst hes
      split
      · rfl
      · rename_i st' hrel2
        rw [hrel] at hrel2
        cases hrel2

theorem dijkstraLoop_step {g : Graph T Nat} {to_node : Nat} {st : DState}
    {cur : NodeCost} {rest : List NodeCost} {es : List (Edge Nat)}
    {st' : DState}
    (hpop : popMin st.pq = some (cur, rest)) (hto : cur.node ≠ to_node)
    (hconn : g.edges[cur.node]? = some es)
    (hrel : relaxAll cur { st with pq := rest } es = some st') :
    dijkstraLoop g to_node st = dijkstraLoop g to_node st' := by
  rw [dijkstraLoop]
  split
  · rename_i hpop2
    rw [hpop2] at hpop
    cases hpop
  · rename_i cur2 rest2 hpop2
    rw [hpop2] at hpop
    simp only [Option.some_inj, Prod.mk.injEq] at hpop
    obtain ⟨rfl, rfl⟩ := hpop
    rw [if_neg hto]
    split
    · rename_i hes
      rw [hconn] at hes
      cases hes
    · rename_i es2 hes
      rw [hconn] at hes
      simp only [Option.some_inj] at hes
      subst hes
      split
      · rename_i hrel2
        rw [hrel] at hrel2
        cases hrel2
      · rename_i st2 hrel2
        rw [hrel] at hrel2
        simp only [Option.some_inj] at hrel2
        subst hrel2
        rfl

theorem dijkstraLoopF_agree {g : Graph T Nat} {to_node : Nat} :
    ∀ {fuel : Nat} {st : DState} {r : Option DState},
      dijkstraLoopF g to_node fuel st = some r →
      dijkstraLoop g to_node st = r := by
  intro fuel
  induction fuel with
  | zero => intro st r h; simp [dijkstraLoopF] at h
  | succ n ih =>
      intro st r h
      unfold dijkstraLoopF at h
      split at h
      · rename_i hpop
        simp only [Option.some_inj] at h
        rw [dijkstraLoop_pop_none hpop, h]
      · rename_i cur rest hpop
        split at h
        · rename_i hto
          simp only [Option.some_inj] at h
          rw [dijkstraLoop_break hpop hto, h]
        · rename_i hto
          split at h
          · rename_i hconn
            simp only [Option.some_inj] at h
            rw [dijkstraLoop_conn_none hpop hto hconn, h]
          · rename_i es hconn
            split at h
            · rename_i hrel
              simp only [Option.some_inj] at h
              rw [dijkstraLoop_relax_none hpop hto hconn hrel, h]
            · rename_i st' hrel
              rw [dijkstraLoop_step hpop hto hconn hrel]
              exact ih h

/-- The path-reconstruction loop (`while current != from_node`), with fuel
`node_count + 1` (supplied by `shortest_path`); `none` is the panic of
`prev[current].unwrap()` on an absent predecessor, an out-of-range index, or
exhausted fuel (i.e. a cyclic `prev` chain, which the theorems rule out). -/
def buildPath (prev : List (Option Nat)) (from_node : Nat) :
    Nat → Nat → List Nat → Option (List Nat)
  | 0, _, _ => none
  | fuel + 1, current, path =>
      if current = from_node then some ((path ++ [from_node]).reverse)
      else
        match prev[current]? with
        | some (some nxt) => buildPath prev from_node fuel nxt (path ++ [current])
        | _ => none

/-- `ShortestPathResult<V>` from graph.rs. -/
structure ShortestPathResult where
  path : List Nat
  cost : Nat
deriving DecidableEq, Repr

/-- `Graph::shortest_path(from_node, to_node)`: outer `none` is a panic
(out-of-bounds `from_node` at the initial `dist.get_mut`, out-of-bounds
`to_node` at the final `dist[to_node]`, or a panic inside a loop); inner
`none` is the normal "no path" result. -/
def Graph.shortest_path (g : Graph T Nat) (from_node to_node : Nat) :
    Option (Option ShortestPathResult) :=
  if from_node < g.node_count then
    let st0 : DState :=
      ⟨(List.replicate g.node_count (none : Option Nat)).set from_node (some 0),
       List.replicate g.node_count none,
       [⟨from_node, 0⟩]⟩
    match dijkstraLoop g to_node st0 with
    | none => none
    | some stF =>
        match stF.dist[to_node]? with
        | none => none
        | some none => some none
        | some (some d) =>
            match buildPath stF.prev from_node (g.node_count + 1) to_node [] with
            | none => none
            | some p => some (some ⟨p, d⟩)
  else none

/-- `Dista g s v c`: there is a directed path from `s` to `v` whose edge
costs sum to `c` (built edge by edge, mirroring the relaxations). -/
inductive Dista (g : Graph T Nat) (s : Nat) : Nat → Nat → Prop
  | base : Dista g s s 0
  | step {u c} {e : Edge Nat} :
      Dista g s u c → e ∈ g.edgesOf u → Dista g s e.dest (c + e.data)

end Dijkstra

/-! ## Basic facts about the container operations -/

section Container

variable {T V : Type}

theorem length_preserved_insert (g : Graph T V) (v : T)
    (h : g.edges.length = g.nodes.length) :
    (g.insert v).1.edges.length = (g.insert v).1.nodes.length := by
  simp [Graph.insert, h]

theorem length_preserved_connect {g g' : Graph T V} {a b : Nat} {d : V}
    (h : g.edges.length = g.nodes.length) (hc : g.connect a b d = some g') :
    g'.edges.length = g'.nodes.length := by
  unfold Graph.connect at hc
  split at hc
  · rename_i l hl
    simp only [Option.some_inj] at hc
    subst hc
    simp [h]
  · cases hc

theorem connect_edges {g g' : Graph T V} {a b : Nat} {d : V}
    (hc : g.connect a b d = some g') :
    ∃ l, g.edges[a]? = some l ∧
      g' = ⟨g.nodes, g.edges.set a (l ++ [⟨d, b⟩])⟩ := by
  unfold Graph.connect at hc
  split at hc
  · rename_i l hl
    simp only [Option.some_inj] at hc
    exact ⟨l, hl, hc.symm⟩
  · cases hc

/-- On a graph whose vectors are parallel, `edgesOf` agrees with the stored
edge list for every valid identifier. -/
theorem edgesOf_eq_getElem {g : Graph T V} {u : Nat}
    (h : u < g.edges.length) :
    g.edges[u]? = some (g.edgesOf u) := by
  rw [List.getElem?_eq_getElem h]
  unfold Graph.edgesOf
  rw [List.getD_eq_getElem?_getD, List.getElem?_eq_getElem h]
  rfl

theorem edgesOf_mem {g : Graph T V} {u : Nat} {e : Edge V}
    (he : e ∈ g.edgesOf u) : ∃ l ∈ g.edges, e ∈ l := by
  unfold Graph.edgesOf at he
  by_cases h : u < g.edges.length
  · rw [List.getD_eq_getElem?_getD, List.getElem?_eq_getElem h] at he
    exact ⟨g.edges[u], List.getElem_mem _, he⟩
  · rw [List.getD_eq_getElem?_getD, List.getElem?_eq_none (by omega)] at he
    simp at he

/-- For a well-formed graph every edge destination reachable through
`edgesOf` is a valid identifier. -/
theorem Graph.WF.dest_lt {g : Graph T V} (hwf : g.WF) {u : Nat} {e : Edge V}
    (he : e ∈ g.edgesOf u) : e.dest < g.node_count := by
  obtain ⟨l, hl, hel⟩ := edgesOf_mem he
  exact hwf.2 l hl e hel

end Container

/-! ## Length preservation through the Dijkstra loop -/

section DijkstraLength

variable {T : Type}

theorem relaxEdge_dist_length {cur : NodeCost} {st st' : DState}
    {e : Edge Nat} (h : relaxEdge cur st e = some st') :
    st'.dist.length = st.dist.length := by
  rcases relaxEdge_inv h with ⟨c, _, _, rfl⟩ | ⟨_, rfl⟩
  · rfl
  · simp [relaxUpdate]

theorem relaxAll_dist_length {cur : NodeCost} {es : List (Edge Nat)} :
    ∀ {st st' : DState}, relaxAll cur st es = some st' →
      st'.dist.length = st.dist.length := by
  induction es with
  | nil =>
      intro st st' h
      simp only [relaxAll, Option.some_inj] at h
      subst h; rfl
  | cons e es ih =>
      intro st st' h
      unfold relaxAll at h
      split at h
      · cases h
      · rename_i st₁ h₁
        rw [ih h, relaxEdge_dist_length h₁]

theorem dijkstraLoop_dist_length {g : Graph T Nat} {to_node : Nat} :
    ∀ {st stF : DState}, dijkstraLoop g to_node st = some stF →
      stF.dist.length = st.dist.length := by
  intro st
  induction st using dijkstraLoop.induct g to_node with
  | case1 st hpop =>
      intro stF h
      rw [dijkstraLoop_pop_none hpop] at h
      simp only [Option.some_inj] at h
      subst h; rfl
  | case2 st cur rest hpop hto =>
      intro stF h
      rw [dijkstraLoop_break hpop hto] at h
      simp only [Option.some_inj] at h
      subst h; rfl
  | case3 st cur rest hpop hto hconn =>
      intro stF h
      rw [dijkstraLoop_conn_none hpop hto hconn] at h
      cases h
  | case4 st cur rest hpop hto es hconn hrel =>
      intro stF h
      rw [dijkstraLoop_relax_none hpop hto hconn hrel] at h
      cases h
  | case5 st cur rest hpop hto es hconn st' hrel ih =>
      intro stF h
      rw [dijkstraLoop_step hpop hto hconn hrel] at h
      rw [ih h, relaxAll_dist_length hrel]

end DijkstraLength

/-! ## Claims C6, C7, C8, C9 -/

section EasyClaims

variable {T V T2 : Type}

theorem bfsLoop_head_oob {g : Graph T V} {p : Nat → T → Bool} {fuel current : Nat}
    {rest : List Nat} {visited : Finset Nat} (hget : g.get current = none) :
    bfsLoop g p (fuel + 1) (current :: rest) visited = none := by
  unfold bfsLoop
  rw [hget]

/-- Claim C6: every operation handed an identifier `≥ node_count` fails
observably (`none` = panic): `get`, `connect` (for `from`), `connections`,
`visit_breadth_first`'s start, and `shortest_path`'s `from` and `to`.  The
two `connect`/`connections` parts use the parallel-vectors invariant
`edges.length = nodes.length`; `shortest_path` is stated on a second graph
with `Nat` edge data, which its signature requires. -/
theorem claim_C6 (g : Graph T V) (g2 : Graph T2 Nat)
    (hlen : g.edges.length = g.nodes.length) :
    (∀ i, g.node_count ≤ i → g.get i = none) ∧
    (∀ i t d, g.node_count ≤ i → g.connect i t d = none) ∧
    (∀ i, g.node_count ≤ i → g.connections i = none) ∧
    (∀ i p, g.node_count ≤ i → g.visit_breadth_first i p = none) ∧
    (∀ i j, g2.node_count ≤ i → g2.shortest_path i j = none) ∧
    (∀ i j, i < g2.node_count → g2.node_count ≤ j →
      g2.shortest_path i j = none) := by
  refine ⟨?_, ?_, ?_, ?_, ?_, ?_⟩
  · intro i hi
    exact List.getElem?_eq_none hi
  · intro i t d hi
    unfold Graph.connect
    rw [List.getElem?_eq_none (by unfold Graph.node_count at hi; omega)]
  · intro i hi
    exact List.getElem?_eq_none (by unfold Graph.node_count at hi; omega)
  · intro i p hi
    unfold Graph.visit_breadth_first
    exact bfsLoop_head_oob (List.getElem?_eq_none hi)
  · intro i j hi
    unfold Graph.shortest_path
    rw [if_neg (by omega)]
  · intro i j hi hj
    unfold Graph.shortest_path
    rw [if_pos hi]
    cases hloop : dijkstraLoop g2 j
      ⟨(List.replicate g2.node_count (none : Option Nat)).set i (some 0),
       List.replicate g2.node_count none, [⟨i, 0⟩]⟩ with
    | none => simp only [hloop]
    | some stF =>
        have hl : stF.dist.length = g2.node_count := by
          rw [dijkstraLoop_dist_length hloop]
          simp
        have hnone : stF.dist[j]? = none := List.getElem?_eq_none (by omega)
        simp only [hloop, hnone]

/-- Concrete instance of C6 on one-node graphs with identifier 1. -/
theorem claim_C6_witness :
    (⟨[0], [[]]⟩ : Graph Nat Nat).get 1 = none ∧
    (⟨[0], [[]]⟩ : Graph Nat Nat).connect 1 0 7 = none ∧
    (⟨[0], [[]]⟩ : Graph Nat Nat).connections 1 = none ∧
    (⟨[0], [[]]⟩ : Graph Nat Nat).visit_breadth_first 1 (fun _ _ => true) = none ∧
    (⟨[0], [[]]⟩ : Graph Nat Nat).shortest_path 1 0 = none ∧
    (⟨[0], [[]]⟩ : Graph Nat Nat).shortest_path 0 1 = none := by
  obtain ⟨h1, h2, h3, h4, h5, h6⟩ :=
    claim_C6 (⟨[0], [[]]⟩ : Graph Nat Nat) (⟨[0], [[]]⟩ : Graph Nat Nat) rfl
  exact ⟨h1 1 (by decide), h2 1 0 7 (by decide), h3 1 (by decide),
    h4 1 _ (by decide), h5 1 0 (by decide), h6 0 1 (by decide) (by decide)⟩

theorem find?_isSome_of_mem {α : Type} {p : α → Bool} {l : List α} {x : α}
    (hx : x ∈ l) (hp : p x = true) : (l.find? p).isSome := by
  induction l with
  | nil => cases hx
  | cons a as ih =>
      cases hpa : p a
      · rcases List.mem_cons.mp hx with rfl | h
        · rw [hpa] at hp; cases hp
        · simpa [List.find?_cons, hpa] using ih h
      · simp [List.find?_cons, hpa]

theorem connections_valid {g : Graph T V} {a : Nat}
    (hlen : g.edges.length = g.nodes.length) (ha : a < g.node_count) :
    g.connections a = some (g.edgesOf a) :=
  edgesOf_eq_getElem (by unfold Graph.node_count at ha; omega)

/-- Claim C7: `connected` is `true` iff `connection` finds an edge; both are
`false`/`none` when `a`'s adjacency list has no edge to `b`, and `true`/some
immediately after a `connect(a, b, _)`; and `connection` returns the first
matching edge in insertion order of `a`'s adjacency list. -/
theorem claim_C7 (g : Graph T V) (a b : Nat)
    (hlen : g.edges.length = g.nodes.length) (ha : a < g.node_count) :
    (g.connected a b = some true ↔ ∃ e, g.connection a b = some (some e)) ∧
    ((∀ e ∈ g.edgesOf a, e.dest ≠ b) →
      g.connection a b = some none ∧ g.connected a b = some false) ∧
    (∀ d g', g.connect a b d = some g' → g'.connected a b = some true) ∧
    (∀ e, g.connection a b = some (some e) →
      e.dest = b ∧ ∃ as bs, g.edgesOf a = as ++ e :: bs ∧
        ∀ e' ∈ as, e'.dest ≠ b) := by
  have hconn : g.connection a b =
      some ((g.edgesOf a).find? (fun e => e.dest == b)) := by
    unfold Graph.connection
    rw [connections_valid hlen ha]
    rfl
  refine ⟨?_, ?_, ?_, ?_⟩
  · unfold Graph.connected
    rw [hconn]
    simp only [Option.map_some', Option.some_inj]
    constructor
    · intro h
      rcases ho : (g.edgesOf a).find? (fun e => e.dest == b) with _ | e
      · rw [ho] at h; simp at h
      · exact ⟨e, by rw [ho]⟩
    · rintro ⟨e, he⟩
      rw [he]
      rfl
  · intro hno
    have : (g.edgesOf a).find? (fun e => e.dest == b) = none := by
      rw [List.find?_eq_none]
      intro e he
      simpa using hno e he
    unfold Graph.connected
    rw [hconn, this]
    exact ⟨rfl, rfl⟩
  · intro d g' hc
    obtain ⟨l, hl, rfl⟩ := connect_edges hc
    have ha' : a < g.edges.length := by unfold Graph.node_count at ha; omega
    have hconn' : Graph.connections ⟨g.nodes, g.edges.set a (l ++ [⟨d, b⟩])⟩ a =
        some (l ++ [⟨d, b⟩]) := by
      unfold Graph.connections
      simp only
      rw [List.getElem?_set_self (by simpa using ha')]
    unfold Graph.connected Graph.connection
    rw [hconn']
    simp only [Option.map_some', Option.some_inj]
    exact find?_isSome_of_mem (x := (⟨d, b⟩ : Edge V)) (by simp) (by simp)
  · intro e he
    rw [hconn] at he
    simp only [Option.some_inj] at he
    have := List.find?_eq_some.mp he
    obtain ⟨hp, as, bs, hsplit, hprev⟩ := this
    refine ⟨by simpa using hp, as, bs, hsplit, ?_⟩
    intro e' he'
    simpa using hprev e' he'

/-- Concrete instance of C7 on a two-node graph with one edge 0→1. -/
theorem claim_C7_witness :
    ((⟨[10, 20], [[⟨5, 1⟩], []]⟩ : Graph Nat Nat).connected 0 1 = some true ↔
      ∃ e, (⟨[10, 20], [[⟨5, 1⟩], []]⟩ : Graph Nat Nat).connection 0 1 =
        some (some e)) ∧
    ((⟨[10, 20], [[⟨5, 1⟩], []]⟩ : Graph Nat Nat).connection 0 0 = some none ∧
      (⟨[10, 20], [[⟨5, 1⟩], []]⟩ : Graph Nat Nat).connected 0 0 = some false) := by
  refine ⟨(claim_C7 _ 0 1 rfl (by decide)).1, ?_⟩
  exact (claim_C7 (⟨[10, 20], [[⟨5, 1⟩], []]⟩ : Graph Nat Nat) 0 0 rfl
    (by decide)).2.1 (by decide)

theorem insert_all_foldl (vs : List T) :
    ∀ (g : Graph T V) (ids : List Nat),
      vs.foldl
        (fun acc value =>
          let step := acc.1.insert value
          (step.1, acc.2 ++ [step.2]))
        (g, ids) =
      (⟨g.nodes ++ vs, g.edges ++ List.replicate vs.length []⟩,
        ids ++ (List.range vs.length).map (· + g.nodes.length)) := by
  induction vs with
  | nil =>
      intro g ids
      simp only [List.foldl_nil, List.length_nil, List.replicate_zero,
        List.range_zero, List.map_nil, List.append_nil]
  | cons v vs ih =>
      intro g ids
      rw [List.foldl_cons]
      exact (ih (⟨g.nodes ++ [v], g.edges ++ [[]]⟩ : Graph T V)
        (ids ++ [g.nodes.length])).trans (by
          simp only [Prod.mk.injEq, Graph.mk.injEq]
          refine ⟨⟨by simp, ?_⟩, ?_⟩
          · rw [List.append_assoc, List.length_cons, List.replicate_succ]
            rfl
          · rw [List.append_assoc, List.length_cons, List.range_succ_eq_map]
            congr 1
            simp only [List.map_cons, List.map_map, List.length_append,
              List.length_singleton, List.singleton_append, List.cons.injEq,
              Nat.zero_add]
            refine ⟨by trivial, ?_⟩
            apply List.map_congr_left
            intro x _
            simp only [Function.comp_apply]
            omega)

/-- Claim C8: `insert` appends the node and an empty adjacency list, returns
the previous `node_count` and grows it by one; starting from the empty graph,
the k-th inserted node's identifier is `k-1` (`insert_all` returns
`range vs.length`) and `get` on it returns the inserted payload; and both
mutating operations preserve `len(nodes) = len(adjacency_lists)` (the
remaining operations do not mutate the graph). -/
theorem claim_C8 :
    (∀ (g : Graph T V) (v : T),
      (g.insert v).2 = g.node_count ∧
      (g.insert v).1.nodes = g.nodes ++ [v] ∧
      (g.insert v).1.edges = g.edges ++ [[]] ∧
      (g.insert v).1.node_count = g.node_count + 1) ∧
    (∀ vs : List T,
      ((Graph.new (T := T) (V := V)).insert_all vs).2 = List.range vs.length ∧
      ∀ k, k < vs.length →
        ((Graph.new (T := T) (V := V)).insert_all vs).1.get k = vs[k]?) ∧
    (∀ (g : Graph T V) (v : T), g.edges.length = g.nodes.length →
      (g.insert v).1.edges.length = (g.insert v).1.nodes.length) ∧
    (∀ (g g' : Graph T V) (a b : Nat) (d : V),
      g.edges.length = g.nodes.length → g.connect a b d = some g' →
      g'.edges.length = g'.nodes.length) := by
  refine ⟨?_, ?_, ?_, ?_⟩
  · intro g v
    exact ⟨rfl, rfl, rfl, by simp [Graph.insert, Graph.node_count]⟩
  · intro vs
    unfold Graph.insert_all
    rw [insert_all_foldl]
    constructor
    · simp [Graph.new]
    · intro k hk
      simp [Graph.new, Graph.get]
  · intro g v h
    exact length_preserved_insert g v h
  · intro g g' a b d h hc
    exact length_preserved_connect h hc

/-- Concrete instance of C8: three inserts from the empty graph give
identifiers 0, 1, 2 and `get` returns the payloads. -/
theorem claim_C8_witness :
    ((Graph.new (T := Nat) (V := Nat)).insert_all [7, 8, 9]).2 = [0, 1, 2] ∧
    ((Graph.new (T := Nat) (V := Nat)).insert_all [7, 8, 9]).1.get 1 = some 8 ∧
    ((⟨[0], [[]]⟩ : Graph Nat Nat).insert 5).1.edges.length =
      ((⟨[0], [[]]⟩ : Graph Nat Nat).insert 5).1.nodes.length := by
  obtain ⟨h1, h2, h3, h4⟩ := claim_C8 (T := Nat) (V := Nat)
  refine ⟨?_, ?_, h3 _ 5 rfl⟩
  · rw [(h2 [7, 8, 9]).1]
    decide
  · rw [(h2 [7, 8, 9]).2 1 (by decide)]
    decide

/-- Claim C9: for a valid `from` identifier, `connection` and `connected`
never panic for any `to` (including `to ≥ node_count`): they return
`some`-wrapped results, and `none`/`false` when no stored edge from `from`
has destination `to`. -/
theorem claim_C9 (g : Graph T V) (a : Nat)
    (hlen : g.edges.length = g.nodes.length) (ha : a < g.node_count) :
    ∀ b : Nat,
      (∃ r, g.connection a b = some r) ∧
      (∃ r, g.connected a b = some r) ∧
      ((∀ e ∈ g.edgesOf a, e.dest ≠ b) →
        g.connection a b = some none ∧ g.connected a b = some false) := by
  intro b
  have hconn : g.connection a b =
      some ((g.edgesOf a).find? (fun e => e.dest == b)) := by
    unfold Graph.connection
    rw [connections_valid hlen ha]
    rfl
  refine ⟨⟨_, hconn⟩, ⟨_, by unfold Graph.connected; rw [hconn]; rfl⟩, ?_⟩
  intro hno
  have hfind : (g.edgesOf a).find? (fun e => e.dest == b) = none := by
    rw [List.find?_eq_none]
    intro e he
    simpa using hno e he
  constructor
  · rw [hconn, hfind]
  · unfold Graph.connected
    rw [hconn, hfind]
    rfl

/-- Concrete instance of C9: `to = 5` is out of range on a two-node graph,
yet `connection`/`connected` return normally. -/
theorem claim_C9_witness :
    (⟨[10, 20], [[⟨5, 1⟩], []]⟩ : Graph Nat Nat).connection 0 5 = some none ∧
    (⟨[10, 20], [[⟨5, 1⟩], []]⟩ : Graph Nat Nat).connected 0 5 = some false :=
  (claim_C9 (⟨[10, 20], [[⟨5, 1⟩], []]⟩ : Graph Nat Nat) 0 rfl (by decide) 5).2.2
    (by decide)

end EasyClaims

/-! ## Breadth-first traversal: correctness of the always-continue run -/

section BFSRun

variable {T V : Type}

theorem mem_destsList {g : Graph T V} {u : Nat} {e : Edge V}
    (he : e ∈ g.edgesOf u) : e.dest ∈ g.destsList := by
  obtain ⟨l, hl, hel⟩ := edgesOf_mem he
  unfold Graph.destsList
  rw [List.mem_flatten]
  exact ⟨l.map Edge.dest, List.mem_map_of_mem _ hl, List.mem_map_of_mem _ hel⟩

theorem mem_allDests {g : Graph T V} {u : Nat} {e : Edge V}
    (he : e ∈ g.edgesOf u) : e.dest ∈ g.allDests := by
  unfold Graph.allDests
  rw [List.mem_toFinset]
  exact mem_destsList he

theorem allDests_card_le (g : Graph T V) :
    g.allDests.card ≤ g.destsList.length :=
  g.destsList.toFinset_card_le

/-- Characterization of the enqueue loop: it appends a duplicate-free block
`P` of fresh destinations to the queue and adds exactly those to the
visited set; afterwards every destination of the processed edge list is in
the visited set. -/
theorem enqueueStep_spec (es : List (Edge V)) :
    ∀ (q : List Nat) (v : Finset Nat),
      ∃ P : List Nat,
        enqueueStep (q, v) es = (q ++ P, v ∪ P.toFinset) ∧
        P.Nodup ∧
        (∀ x ∈ P, x ∉ v) ∧
        (∀ x ∈ P, ∃ e ∈ es, e.dest = x) ∧
        (∀ e ∈ es, e.dest ∈ v ∪ P.toFinset) := by
  induction es with
  | nil =>
      intro q v
      exact ⟨[], by simp [enqueueStep], by simp, by simp, by simp, by simp⟩
  | cons e es ih =>
      intro q v
      by_cases hd : e.dest ∈ v
      · obtain ⟨P, h1, h2, h3, h4, h5⟩ := ih q v
        refine ⟨P, ?_, h2, h3, ?_, ?_⟩
        · rw [enqueueStep, if_pos hd]
          exact h1
        · intro x hx
          obtain ⟨e', he', hx'⟩ := h4 x hx
          exact ⟨e', List.mem_cons_of_mem e he', hx'⟩
        · intro e' he'
          rcases List.mem_cons.mp he' with rfl | he''
          · exact Finset.mem_union_left _ hd
          · exact h5 e' he''
      · obtain ⟨P, h1, h2, h3, h4, h5⟩ := ih (q ++ [e.dest]) (insert e.dest v)
        refine ⟨e.dest :: P, ?_, ?_, ?_, ?_, ?_⟩
        · rw [enqueueStep, if_neg hd, h1]
          refine Prod.ext ?_ ?_
          · simp
          · simp only [List.toFinset_cons]
            rw [Finset.union_insert, Finset.insert_union]
        · refine List.nodup_cons.mpr ⟨?_, h2⟩
          intro hmem
          exact h3 e.dest hmem (Finset.mem_insert_self _ _)
        · intro x hx
          rcases List.mem_cons.mp hx with rfl | hx'
          · exact hd
          · intro hxv
            exact h3 x hx' (Finset.mem_insert_of_mem hxv)
        · intro x hx
          rcases List.mem_cons.mp hx with rfl | hx'
          · exact ⟨e, List.mem_cons_self _ _, rfl⟩
          · obtain ⟨e', he', hx''⟩ := h4 x hx'
            exact ⟨e', List.mem_cons_of_mem e he', hx''⟩
        · intro e' he'
          rcases List.mem_cons.mp he' with rfl | he''
          · simp
          · have := h5 e' he''
            rw [Finset.mem_union] at this
            rcases this with h | h
            · rcases Finset.mem_insert.mp h with h | h
              · rw [h]
                simp
              · exact Finset.mem_union_left _ h
            · simp only [List.toFinset_cons]
              exact Finset.mem_union_right _ (Finset.mem_insert_of_mem h)

/-- The fuel measure `queue.length + card (allDests \ visited)` is constant
under the enqueue loop (each pushed element leaves the unvisited-destination
set and joins the queue). -/
theorem enqueue_measure {D v : Finset Nat} {P : List Nat} {q : List Nat}
    (hPD : ∀ x ∈ P, x ∈ D) (hPv : ∀ x ∈ P, x ∉ v) (hnd : P.Nodup) :
    (q ++ P).length + (D \ (v ∪ P.toFinset)).card =
      q.length + (D \ v).card := by
  have hsub : P.toFinset ⊆ D \ v := by
    intro x hx
    rw [List.mem_toFinset] at hx
    exact Finset.mem_sdiff.mpr ⟨hPD x hx, hPv x hx⟩
  have h1 : D \ (v ∪ P.toFinset) = (D \ v) \ P.toFinset := by
    rw [Finset.sdiff_union_distrib]
    ext x
    simp only [Finset.mem_inter, Finset.mem_sdiff]
    constructor
    · rintro ⟨⟨hxD, hxv⟩, _, hxP⟩
      exact ⟨⟨hxD, hxv⟩, hxP⟩
    · rintro ⟨⟨hxD, hxv⟩, hxP⟩
      exact ⟨⟨hxD, hxv⟩, hxD, hxP⟩
  have h2 : ((D \ v) \ P.toFinset).card = (D \ v).card - P.toFinset.card :=
    Finset.card_sdiff hsub
  have h3 : P.toFinset.card = P.length := by
    rw [List.toFinset_card_of_nodup hnd]
  have h4 : P.toFinset.card ≤ (D \ v).card := Finset.card_le_card hsub
  rw [h1, h2, h3]
  rw [List.length_append]
  omega

/-- The always-continue visitor. -/
def ptrue : Nat → T → Bool := fun _ _ => true

/-- One unfolding of `bfsLoop` at a nonempty queue whose head is a valid
identifier, with the always-continue visitor. -/
theorem bfsLoop_cons_ptrue {g : Graph T V} {fuel current : Nat}
    {rest : List Nat} {v : Finset Nat} {payload : T}
    (hget : g.get current = some payload)
    (hconn : g.connections current = some (g.edgesOf current)) :
    bfsLoop g ptrue (fuel + 1) (current :: rest) v =
      match bfsLoop g ptrue fuel
          (enqueueStep (rest, v) (g.edgesOf current)).1
          (enqueueStep (rest, v) (g.edgesOf current)).2 with
      | some (tr, qf, vf) => some (current :: tr, qf, vf)
      | none => none := by
  rw [bfsLoop.eq_3, hget, hconn]
  rfl

/-- Main run lemma for the always-continue visitor: from any queue/visited
state satisfying the loop invariants, the traversal terminates with an empty
queue, a duplicate-free trace, and a final visited set `v ∪ trace` that is
closed under edges out of traced nodes; the trace meets `v` exactly in the
queue, begins with the queue, and every closed predicate holding on `v` and
preserved by `Adj` holds on the final visited set. -/
theorem bfs_run {g : Graph T V} (hwf : g.WF) :
    ∀ (fuel : Nat) (q : List Nat) (v : Finset Nat),
      q.length + (g.allDests \ v).card ≤ fuel →
      q.Nodup →
      (∀ x ∈ q, x ∈ v) →
      (∀ x ∈ v, x < g.node_count) →
      ∃ tr vf,
        bfsLoop g ptrue fuel q v = some (tr, [], vf) ∧
        tr.Nodup ∧
        vf = v ∪ tr.toFinset ∧
        (∀ x, (x ∈ tr ∧ x ∈ v) ↔ x ∈ q) ∧
        (∀ x ∈ tr, ∀ e ∈ g.edgesOf x, e.dest ∈ vf) ∧
        tr.take q.length = q ∧
        (∀ R : Nat → Prop, (∀ x ∈ v, R x) →
          (∀ a b, R a → Adj g a b → R b) → ∀ x ∈ vf, R x) := by
  intro fuel
  induction fuel with
  | zero =>
      intro q v hfuel hq hqv hvn
      obtain rfl : q = [] := by
        cases q with
        | nil => rfl
        | cons a as => simp at hfuel
      refine ⟨[], v, ?_, by simp, by simp, by simp, by simp, by simp, ?_⟩
      · unfold bfsLoop
        rfl
      · intro R hRv _ x hx
        exact hRv x hx
  | succ f ih =>
      intro q v hfuel hq hqv hvn
      cases q with
      | nil =>
          refine ⟨[], v, ?_, by simp, by simp, by simp, by simp, by simp, ?_⟩
          · unfold bfsLoop
            rfl
          · intro R hRv _ x hx
            exact hRv x hx
      | cons current rest =>
          have hcv : current ∈ v := hqv current (List.mem_cons_self _ _)
          have hcn : current < g.node_count := hvn current hcv
          have hget : g.get current = some g.nodes[current] :=
            List.getElem?_eq_getElem hcn
          have hconn : g.connections current = some (g.edgesOf current) :=
            connections_valid hwf.1 hcn
          obtain ⟨P, hP1, hP2, hP3, hP4, hP5⟩ :=
            enqueueStep_spec (g.edgesOf current) rest v
          have hPD : ∀ x ∈ P, x ∈ g.allDests := by
            intro x hx
            obtain ⟨e, he, rfl⟩ := hP4 x hx
            exact mem_allDests he
          have hPn : ∀ x ∈ P, x < g.node_count := by
            intro x hx
            obtain ⟨e, he, rfl⟩ := hP4 x hx
            exact hwf.dest_lt he
          have hfuel' :
              (rest ++ P).length + (g.allDests \ (v ∪ P.toFinset)).card ≤ f := by
            have := enqueue_measure (q := rest) hPD hP3 hP2
            simp only [List.length_cons] at hfuel
            omega
          have hnd' : (rest ++ P).Nodup := by
            rw [List.nodup_append]
            refine ⟨(List.nodup_cons.mp hq).2, hP2, ?_⟩
            intro x hxr hxP
            exact hP3 x hxP (hqv x (List.mem_cons_of_mem _ hxr))
          have hqv' : ∀ x ∈ rest ++ P, x ∈ v ∪ P.toFinset := by
            intro x hx
            rcases List.mem_append.mp hx with hx | hx
            · exact Finset.mem_union_left _ (hqv x (List.mem_cons_of_mem _ hx))
            · exact Finset.mem_union_right _ (List.mem_toFinset.mpr hx)
          have hvn' : ∀ x ∈ v ∪ P.toFinset, x < g.node_count := by
            intro x hx
            rcases Finset.mem_union.mp hx with hx | hx
            · exact hvn x hx
            · exact hPn x (List.mem_toFinset.mp hx)
          obtain ⟨tr', vf', hrun, htrnd, hvf', hiff, hclose, htake, hR⟩ :=
            ih (rest ++ P) (v ∪ P.toFinset) hfuel' hnd' hqv' hvn'
          have htr'sub : ∀ x ∈ rest ++ P, x ∈ tr' := by
            intro x hx
            exact ((hiff x).mpr hx).1
          have hres : bfsLoop g ptrue (f + 1) (current :: rest) v =
              some (current :: tr', [], vf') := by
            rw [bfsLoop_cons_ptrue hget hconn, hP1]
            simp only [hrun]
          have hcurtr' : current ∉ tr' := by
            intro hmem
            have : current ∈ rest ++ P :=
              (hiff current).mp ⟨hmem, Finset.mem_union_left _ hcv⟩
            rcases List.mem_append.mp this with hx | hx
            · exact (List.nodup_cons.mp hq).1 hx
            · exact hP3 current hx hcv
          refine ⟨current :: tr', vf', hres, ?_, ?_, ?_, ?_, ?_, ?_⟩
          · exact List.nodup_cons.mpr ⟨hcurtr', htrnd⟩
          · rw [hvf']
            ext x
            simp only [Finset.mem_union, List.toFinset_cons, Finset.mem_insert,
              List.mem_toFinset]
            constructor
            · rintro ((h | h) | h)
              · exact Or.inl h
              · exact Or.inr (Or.inr (htr'sub x (List.mem_append.mpr (Or.inr h))))
              · exact Or.inr (Or.inr h)
            · rintro (h | rfl | h)
              · exact Or.inl (Or.inl h)
              · exact Or.inl (Or.inl hcv)
              · exact Or.inr h
          · intro x
            constructor
            · rintro ⟨hxtr, hxv⟩
              rcases List.mem_cons.mp hxtr with rfl | hxtr'
              · exact List.mem_cons_self _ _
              · have : x ∈ rest ++ P :=
                  (hiff x).mp ⟨hxtr', Finset.mem_union_left _ hxv⟩
                rcases List.mem_append.mp this with hx | hx
                · exact List.mem_cons_of_mem _ hx
                · exact absurd hxv (hP3 x hx)
            · intro hxq
              rcases List.mem_cons.mp hxq with rfl | hxr
              · exact ⟨List.mem_cons_self _ _, hcv⟩
              · exact ⟨List.mem_cons_of_mem _
                  (htr'sub x (List.mem_append.mpr (Or.inl hxr))),
                  hqv x (List.mem_cons_of_mem _ hxr)⟩
          · intro x hxtr e he
            rcases List.mem_cons.mp hxtr with rfl | hxtr'
            · have := hP5 e he
              rw [hvf']
              exact Finset.mem_union_left _ this
            · exact hclose x hxtr' e he
          · simp only [List.length_cons, List.take_succ_cons, List.cons.injEq,
              true_and]
            have : tr'.take rest.length = (tr'.take (rest ++ P).length).take rest.length := by
              rw [List.take_take]
              congr 1
              simp only [List.length_append]
              omega
            rw [this, htake, List.take_left]
          · intro R hRv hRstep x hx
            refine hR R ?_ hRstep x hx
            intro y hy
            rcases Finset.mem_union.mp hy with hy | hy
            · exact hRv y hy
            · obtain ⟨e, he, rfl⟩ := hP4 y (List.mem_toFinset.mp hy)
              exact hRstep current e.dest (hRv current hcv) ⟨e, he, rfl⟩

end BFSRun

/-! ## Claim C2: the always-continue traversal visits exactly the reachable
nodes, each once -/

section ClaimC2

variable {T V : Type}

/-- The spec's BFS scenario: payloads `[1,2,3,4]` (identifiers 0..3), edges
1→2, 2→3, 1→4 in payload terms, i.e. 0→1, 1→2, 0→3 in identifiers, inserted
in that order. -/
def bfsScenario : Graph Nat Unit :=
  ⟨[1, 2, 3, 4], [[⟨(), 1⟩, ⟨(), 3⟩], [⟨(), 2⟩], [], []]⟩

theorem reachable_of_mem_run {g : Graph T V} {s : Nat} {vf : Finset Nat}
    (hs : Reachable g s s)
    (hR : ∀ R : Nat → Prop, (∀ x ∈ ({s} : Finset Nat), R x) →
      (∀ a b, R a → Adj g a b → R b) → ∀ x ∈ vf, R x) :
    ∀ x ∈ vf, Reachable g s x := by
  refine hR (Reachable g s) ?_ ?_
  · intro x hx
    rw [Finset.mem_singleton] at hx
    subst hx
    exact hs
  · rintro a b ⟨k, hk⟩ hadj
    exact ⟨k + 1, hk.succ hadj⟩

/-- Claim C2: for every well-formed graph and valid start, the traversal
with the always-`true` visitor terminates normally (no panic, fuel never
exhausted, final queue empty) and its visit trace contains every node
reachable from the start exactly once and no unreachable node. -/
theorem claim_C2 (g : Graph T V) (from_index : Nat) (hwf : g.WF)
    (hfrom : from_index < g.node_count) :
    ∃ tr vf, g.visit_breadth_first from_index ptrue = some (tr, [], vf) ∧
      tr.Nodup ∧ ∀ x, x ∈ tr ↔ Reachable g from_index x := by
  have hfuel : [from_index].length +
      (g.allDests \ {from_index}).card ≤ g.destsList.length + 1 := by
    have h1 : (g.allDests \ {from_index}).card ≤ g.allDests.card :=
      Finset.card_le_card (Finset.sdiff_subset)
    have h2 := allDests_card_le g
    simp only [List.length_singleton]
    omega
  obtain ⟨tr, vf, hrun, hnd, hvf, hiff, hclose, _, hR⟩ :=
    bfs_run hwf (g.destsList.length + 1) [from_index] {from_index} hfuel
      (List.nodup_singleton _)
      (by intro x hx; simp at hx; simp [hx])
      (by intro x hx; rw [Finset.mem_singleton] at hx; subst hx; exact hfrom)
  have hfromtr : from_index ∈ tr :=
    ((hiff from_index).mpr (List.mem_singleton_self _)).1
  have htrvf : ∀ x, x ∈ vf ↔ x ∈ tr := by
    intro x
    rw [hvf]
    simp only [Finset.mem_union, Finset.mem_singleton, List.mem_toFinset]
    constructor
    · rintro (rfl | h)
      · exact hfromtr
      · exact h
    · exact Or.inr
  refine ⟨tr, vf, hrun, hnd, ?_⟩
  intro x
  constructor
  · intro hx
    exact reachable_of_mem_run ⟨0, StepN.zero⟩ hR x ((htrvf x).mpr hx)
  · rintro ⟨k, hk⟩
    rw [← htrvf]
    clear hfromtr
    induction hk with
    | zero =>
        rw [hvf]
        exact Finset.mem_union_left _ (Finset.mem_singleton_self _)
    | succ hb hadj ih =>
        rename_i b c k
        obtain ⟨e, he, rfl⟩ := hadj
        exact hclose b ((htrvf b).mp ih) e he

/-- Concrete instance of C2 at the spec's BFS scenario graph. -/
theorem claim_C2_witness :
    ∃ tr vf, bfsScenario.visit_breadth_first 0 ptrue = some (tr, [], vf) ∧
      tr.Nodup ∧ ∀ x, x ∈ tr ↔ Reachable bfsScenario 0 x :=
  claim_C2 bfsScenario 0 (by constructor <;> decide) (by decide)

end ClaimC2

/-! ## Claim C4: early termination -/

section ClaimC4

variable {T V : Type}

/-- The always-stop visitor. -/
def pfalse : Nat → T → Bool := fun _ _ => false

/-- A two-node graph with the single edge 0→1. -/
def pairGraph : Graph Nat Unit := ⟨[0, 1], [[⟨(), 1⟩], []]⟩

/-- Every visited node other than the last one received `true` from the
visitor: once the visitor returns `false` the loop makes no further visitor
call. -/
theorem bfsLoop_stops_after_false {g : Graph T V} {p : Nat → T → Bool} :
    ∀ {fuel : Nat} {q : List Nat} {v : Finset Nat} {tr qf : List Nat}
      {vf : Finset Nat},
      bfsLoop g p fuel q v = some (tr, qf, vf) →
      ∀ i x, tr[i]? = some x → i + 1 < tr.length →
        ∃ payload, g.get x = some payload ∧ p x payload = true := by
  intro fuel
  induction fuel with
  | zero =>
      intro q v tr qf vf h i x hx hlt
      cases q with
      | nil =>
          unfold bfsLoop at h
          simp only [Option.some_inj, Prod.mk.injEq] at h
          obtain ⟨rfl, rfl, rfl⟩ := h
          simp at hx
      | cons a as => simp [bfsLoop] at h
  | succ f ih =>
      intro q v tr qf vf h i x hx hlt
      cases q with
      | nil =>
          unfold bfsLoop at h
          simp only [Option.some_inj, Prod.mk.injEq] at h
          obtain ⟨rfl, rfl, rfl⟩ := h
          simp at hx
      | cons current rest =>
          rw [bfsLoop.eq_3] at h
          split at h
          · rename_i payload es hget hconn
            by_cases hsc : p current payload
            · rw [if_pos hsc] at h
              split at h
              · rename_i tr' qf' vf' hrec
                simp only [Option.some_inj, Prod.mk.injEq] at h
                obtain ⟨rfl, rfl, rfl⟩ := h
                cases i with
                | zero =>
                    simp only [List.getElem?_cons_zero, Option.some_inj] at hx
                    subst hx
                    exact ⟨payload, hget, hsc⟩
                | succ j =>
                    simp only [List.getElem?_cons_succ] at hx
                    simp only [List.length_cons] at hlt
                    exact ih hrec j x hx (by omega)
              · cases h
            · rw [if_neg hsc] at h
              simp only [Option.some_inj, Prod.mk.injEq] at h
              obtain ⟨rfl, rfl, rfl⟩ := h
              simp only [List.length_cons, List.length_nil] at hlt
              omega
          · cases h

/-- Counterexample to C4 as stated: with the always-`false` visitor on the
two-node graph 0→1, the loop body still enqueues the not-yet-seen
destination 1 of node 0 even though the visitor just returned `false` for
node 0, so the final queue is `[1]`, not `[]` as the claim's
"enqueued only when the visitor returned true" would force. -/
theorem claim_C4_cex :
    (pairGraph.visit_breadth_first 0 pfalse).map (fun r => r.2.1) =
      some [1] ∧ ([1] : List Nat) ≠ [] := by
  constructor
  · rfl
  · decide

/-- Claim C4 (amended): once the visitor returns `false`, no further visitor
invocation occurs — already-enqueued nodes are abandoned (first conjunct, for
every graph, visitor and start).  However, the not-yet-seen destinations of
the node that received `false` are still enqueued (the source's enqueue loop
is not guarded by `should_continue`); this is unobservable through the
visitor, as the loop exits before visiting them (second conjunct shows the
concrete final state: node 1 enqueued and marked seen, never visited). -/
theorem claim_C4 :
    (∀ (g : Graph T V) (p : Nat → T → Bool) (from_index : Nat)
      (tr qf : List Nat) (vf : Finset Nat),
      g.visit_breadth_first from_index p = some (tr, qf, vf) →
      ∀ i x, tr[i]? = some x → i + 1 < tr.length →
        ∃ payload, g.get x = some payload ∧ p x payload = true) ∧
    ∃ vf, pairGraph.visit_breadth_first 0 pfalse = some ([0], [1], vf) ∧
      1 ∈ vf := by
  constructor
  · intro g p from_index tr qf vf h i x hx hlt
    exact bfsLoop_stops_after_false h i x hx hlt
  · exact ⟨insert 1 {0}, rfl, by decide⟩

/-- Concrete instance of the amended C4's universal part: in the scenario
graph with a visitor stopping at payload 2, the first visited node (id 0)
received `true`. -/
theorem claim_C4_witness :
    ∃ payload, bfsScenario.get 0 = some payload ∧
      (fun _ value => !(value == 2)) 0 payload = true := by
  have hrun : bfsScenario.visit_breadth_first 0
      (fun _ value => !(value == 2)) =
      some ([0, 1], [3, 2], insert 2 (insert 3 (insert 1 {0}))) := rfl
  exact claim_C4.1 bfsScenario (fun _ value => !(value == 2)) 0
    [0, 1] [3, 2] (insert 2 (insert 3 (insert 1 {0}))) hrun 0 0 (by decide)
    (by decide)

end ClaimC4

/-! ## Claim C3: level-by-level characterization of the visitation order

The loop is shown equal to a level-synchronous traversal: `processLevel`
processes one whole breadth-first generation (each parent in visitation
order, each parent's edge list in stored order — which is exactly the
"siblings in edge-insertion order of their common parent" determinism of the
claim), and the trace is the concatenation of the generated levels, whose
elements are shown to sit at exactly their breadth-first depth. -/

section ClaimC3

variable {T V : Type}

/-- Process one breadth-first generation: fold the enqueue loop over the
level's nodes in order (each node's edge list in stored order). -/
def processLevel (g : Graph T V) : List Nat × Finset Nat → List Nat → List Nat × Finset Nat
  | acc, [] => acc
  | acc, x :: xs => processLevel g (enqueueStep acc (g.edgesOf x)) xs

/-- The successive breadth-first generations starting from a level (fuel
bounds the number of generations; the theorems instantiate it large enough
that it is never exhausted). -/
def bfsLevels (g : Graph T V) : Nat → List Nat → Finset Nat → List (List Nat)
  | _, [], _ => []
  | 0, _ :: _, _ => []
  | fuel + 1, x :: xs, v =>
      (x :: xs) ::
        bfsLevels g fuel (processLevel g ([], v) (x :: xs)).1
          (processLevel g ([], v) (x :: xs)).2

/-- The enqueue loop appends the same block of fresh destinations whatever
the queue already holds. -/
theorem enqueueStep_shift (es : List (Edge V)) :
    ∀ (q : List Nat) (v : Finset Nat),
      enqueueStep (q, v) es =
        (q ++ (enqueueStep (([] : List Nat), v) es).1,
          (enqueueStep (([] : List Nat), v) es).2) := by
  induction es with
  | nil => intro q v; simp [enqueueStep]
  | cons e es ih =>
      intro q v
      by_cases hd : e.dest ∈ v
      · rw [enqueueStep, if_pos hd, enqueueStep, if_pos hd]
        exact ih q v
      · rw [enqueueStep, if_neg hd, enqueueStep, if_neg hd]
        rw [ih (q ++ [e.dest]) (insert e.dest v),
          ih ([] ++ [e.dest]) (insert e.dest v)]
        simp

/-- Characterization of one `processLevel` pass, mirroring
`enqueueStep_spec`. -/
theorem processLevel_spec (level : List Nat) {g : Graph T V} :
    ∀ (acc : List Nat) (v : Finset Nat),
      ∃ P : List Nat,
        processLevel g (acc, v) level = (acc ++ P, v ∪ P.toFinset) ∧
        P.Nodup ∧ (∀ x ∈ P, x ∉ v) ∧
        (∀ x ∈ P, ∃ u ∈ level, ∃ e ∈ g.edgesOf u, e.dest = x) ∧
        (∀ u ∈ level, ∀ e ∈ g.edgesOf u, e.dest ∈ v ∪ P.toFinset) := by
  induction level with
  | nil =>
      intro acc v
      exact ⟨[], by simp [processLevel], by simp, by simp, by simp, by simp⟩
  | cons u us ih =>
      intro acc v
      obtain ⟨P₁, hq1, hn1, hv1, ho1, hc1⟩ := enqueueStep_spec (g.edgesOf u) acc v
      obtain ⟨P₂, hq2, hn2, hv2, ho2, hc2⟩ := ih (acc ++ P₁) (v ∪ P₁.toFinset)
      refine ⟨P₁ ++ P₂, ?_, ?_, ?_, ?_, ?_⟩
      · rw [processLevel, hq1, hq2]
        simp [Finset.union_assoc, List.toFinset_append]
      · rw [List.nodup_append]
        refine ⟨hn1, hn2, ?_⟩
        intro x hx1 hx2
        exact hv2 x hx2 (Finset.mem_union_right _ (List.mem_toFinset.mpr hx1))
      · intro x hx
        rcases List.mem_append.mp hx with hx | hx
        · exact hv1 x hx
        · intro hxv
          exact hv2 x hx (Finset.mem_union_left _ hxv)
      · intro x hx
        rcases List.mem_append.mp hx with hx | hx
        · obtain ⟨e, he, hd⟩ := ho1 x hx
          exact ⟨u, List.mem_cons_self _ _, e, he, hd⟩
        · obtain ⟨u', hu', e, he, hd⟩ := ho2 x hx
          exact ⟨u', List.mem_cons_of_mem _ hu', e, he, hd⟩
      · intro u' hu' e he
        have hsplit : v ∪ (P₁ ++ P₂).toFinset =
            (v ∪ P₁.toFinset) ∪ P₂.toFinset := by
          simp [Finset.union_assoc, List.toFinset_append]
        rcases List.mem_cons.mp hu' with rfl | hu''
        · rw [hsplit]
          exact Finset.mem_union_left _ (hc1 e he)
        · rw [hsplit]
          exact hc2 u' hu'' e he

/-- One whole level is popped before anything it enqueued: the loop on
`q ++ acc` visits `q` first and then continues from the state in which the
whole of `q` has been processed. -/
theorem bfs_level_decomp {g : Graph T V} (hwf : g.WF) :
    ∀ (q : List Nat) (f : Nat) (acc : List Nat) (v : Finset Nat),
      (∀ x ∈ q, x ∈ v) → (∀ x ∈ v, x < g.node_count) →
      bfsLoop g ptrue (q.length + f) (q ++ acc) v =
        match bfsLoop g ptrue f (processLevel g (acc, v) q).1
            (processLevel g (acc, v) q).2 with
        | some (tr, qf, vf) => some (q ++ tr, qf, vf)
        | none => none := by
  intro q
  induction q with
  | nil =>
      intro f acc v _ _
      simp only [List.length_nil, Nat.zero_add, List.nil_append, processLevel]
      cases h : bfsLoop g ptrue f acc v with
      | none => rfl
      | some r =>
          obtain ⟨tr, qf, vf⟩ := r
          simp
  | cons current q' ih =>
      intro f acc v hqv hvn
      have hcv : current ∈ v := hqv current (List.mem_cons_self _ _)
      have hcn : current < g.node_count := hvn current hcv
      have hget : g.get current = some g.nodes[current] :=
        List.getElem?_eq_getElem hcn
      have hconn : g.connections current = some (g.edgesOf current) :=
        connections_valid hwf.1 hcn
      obtain ⟨P, hP1, hP2, hP3, hP4, hP5⟩ :=
        enqueueStep_spec (g.edgesOf current) [] v
      simp only [List.nil_append] at hP1
      have harith : (current :: q').length + f = (q'.length + f) + 1 := by
        simp only [List.length_cons]
        omega
      rw [harith, List.cons_append, bfsLoop_cons_ptrue hget hconn,
        enqueueStep_shift, hP1]
      dsimp only
      have hPn : ∀ x ∈ P, x < g.node_count := by
        intro x hx
        obtain ⟨e, he, rfl⟩ := hP4 x hx
        exact hwf.dest_lt he
      have := ih f (acc ++ P) (v ∪ P.toFinset)
        (by
          intro x hx
          exact Finset.mem_union_left _ (hqv x (List.mem_cons_of_mem _ hx)))
        (by
          intro x hx
          rcases Finset.mem_union.mp hx with hx | hx
          · exact hvn x hx
          · exact hPn x (List.mem_toFinset.mp hx))
      rw [List.append_assoc, this]
      have hpl : processLevel g (acc, v) (current :: q') =
          processLevel g (acc ++ P, v ∪ P.toFinset) q' := by
        rw [processLevel, enqueueStep_shift, hP1]
      rw [hpl]
      cases bfsLoop g ptrue f (processLevel g (acc ++ P, v ∪ P.toFinset) q').1
          (processLevel g (acc ++ P, v ∪ P.toFinset) q').2 with
      | none => rfl
      | some r =>
          obtain ⟨tr, qf, vf⟩ := r
          simp

/-- The trace of the always-continue run is the concatenation of the
breadth-first generations. -/
theorem bfs_trace_flatten {g : Graph T V} (hwf : g.WF) :
    ∀ (lfuel nfuel : Nat) (level : List Nat) (v : Finset Nat) (tr : List Nat)
      (vf : Finset Nat),
      (∀ x ∈ level, x ∈ v) → (∀ x ∈ v, x < g.node_count) →
      level.length + (g.allDests \ v).card ≤ nfuel → nfuel ≤ lfuel →
      bfsLoop g ptrue nfuel level v = some (tr, [], vf) →
      tr = (bfsLevels g lfuel level v).flatten := by
  intro lfuel
  induction lfuel with
  | zero =>
      intro nfuel level v tr vf hlv hvn hnf hle hrun
      obtain rfl : nfuel = 0 := by omega
      obtain rfl : level = [] := by
        cases level with
        | nil => rfl
        | cons a as => simp at hnf
      unfold bfsLoop at hrun
      simp only [Option.some_inj, Prod.mk.injEq] at hrun
      obtain ⟨rfl, -, -⟩ := hrun
      rfl
  | succ lf ih =>
      intro nfuel level v tr vf hlv hvn hnf hle hrun
      cases level with
      | nil =>
          have : bfsLoop g ptrue nfuel ([] : List Nat) v =
              some ([], [], v) := by
            cases nfuel <;> rfl
          rw [this] at hrun
          simp only [Option.some_inj, Prod.mk.injEq] at hrun
          obtain ⟨rfl, -, -⟩ := hrun
          rfl
      | cons x xs =>
          have hlen1 : 1 ≤ (x :: xs).length := by simp
          have hf : nfuel = (x :: xs).length + (nfuel - (x :: xs).length) := by
            have : (x :: xs).length ≤ nfuel := by omega
            omega
          have hdec := bfs_level_decomp hwf (x :: xs)
            (nfuel - (x :: xs).length) [] v hlv hvn
          rw [List.append_nil] at hdec
          rw [hf, hdec] at hrun
          obtain ⟨P, hq, hnd, hfresh, horig, hcov⟩ :=
            processLevel_spec (x :: xs) ([] : List Nat) v
          split at hrun
          · rename_i tr' qf' vf' hrun'
            simp only [Option.some_inj, Prod.mk.injEq] at hrun
            obtain ⟨rfl, rfl, rfl⟩ := hrun
            have hPn : ∀ y ∈ P, y < g.node_count := by
              intro y hy
              obtain ⟨u, hu, e, he, rfl⟩ := horig y hy
              exact hwf.dest_lt he
            have hmeasure : P.length + (g.allDests \ (v ∪ P.toFinset)).card =
                (g.allDests \ v).card := by
              have hPD : ∀ y ∈ P, y ∈ g.allDests := by
                intro y hy
                obtain ⟨u, hu, e, he, rfl⟩ := horig y hy
                exact mem_allDests he
              have := enqueue_measure (q := ([] : List Nat)) hPD hfresh hnd
              simpa using this
            have htr' := ih (nfuel - (x :: xs).length)
              (processLevel g ([], v) (x :: xs)).1
              (processLevel g ([], v) (x :: xs)).2 tr' vf'
              (by
                rw [hq]
                intro y hy
                simp only [List.nil_append] at hy
                exact Finset.mem_union_right _ (List.mem_toFinset.mpr hy))
              (by
                rw [hq]
                intro y hy
                rcases Finset.mem_union.mp hy with hy | hy
                · exact hvn y hy
                · exact hPn y (List.mem_toFinset.mp hy))
              (by
                rw [hq]
                simp only [List.nil_append]
                simp only [List.length_cons] at hnf ⊢
                omega)
              (by
                simp only [List.length_cons] at hnf ⊢
                omega)
              hrun'
            rw [bfsLevels, htr']
            rfl
          · cases hrun

/-- Breadth-first depth is unique. -/
theorem IsBfsDepth_unique {g : Graph T V} {s x d₁ d₂ : Nat}
    (h₁ : IsBfsDepth g s x d₁) (h₂ : IsBfsDepth g s x d₂) : d₁ = d₂ := by
  rcases Nat.lt_trichotomy d₁ d₂ with h | h | h
  · exact absurd h₁.1 (h₂.2 d₁ h)
  · exact h
  · exact absurd h₂.1 (h₁.2 d₂ h)

theorem StepN_zero_inv {g : Graph T V} {s x : Nat}
    (h : StepN g s x 0) : x = s := by
  cases h
  rfl

theorem StepN_succ_inv {g : Graph T V} {s x k : Nat}
    (h : StepN g s x (k + 1)) : ∃ u, StepN g s u k ∧ Adj g u x := by
  cases h with
  | succ hb hadj => exact ⟨_, hb, hadj⟩

/-- Depth classification of the generations: starting from a level whose
elements all sit at exact depth `k`, with all depth-`≤ k` nodes already
enqueued and all earlier generations fully relaxed, the flattened remaining
generations are sorted by breadth-first depth and contain only nodes of
depth `≥ k`. -/
theorem bfsLevels_depth {g : Graph T V} {s : Nat} :
    ∀ (lfuel : Nat) (level : List Nat) (v : Finset Nat) (k : Nat),
      (∀ x ∈ level, StepN g s x k) →
      (∀ x j, j ≤ k → StepN g s x j → x ∈ v) →
      (∀ u ∈ v, u ∉ level → ∀ e ∈ g.edgesOf u, e.dest ∈ v) →
      (∀ x ∈ level, ∀ j < k, ¬StepN g s x j) →
      List.Pairwise (fun a b => ∀ da db, IsBfsDepth g s a da →
          IsBfsDepth g s b db → da ≤ db) (bfsLevels g lfuel level v).flatten ∧
      (∀ b ∈ (bfsLevels g lfuel level v).flatten, ∀ db,
        IsBfsDepth g s b db → k ≤ db) := by
  intro lfuel
  induction lfuel with
  | zero =>
      intro level v k _ _ _ _
      cases level <;> simp [bfsLevels]
  | succ lf ih =>
      intro level v k h1 h2 h3 h4
      cases level with
      | nil => simp [bfsLevels]
      | cons x xs =>
          obtain ⟨P, hq, hnd, hfresh, horig, hcov⟩ :=
            processLevel_spec (x :: xs) ([] : List Nat) v
          simp only [List.nil_append] at hq
          have hdepth : ∀ y ∈ (x :: xs), IsBfsDepth g s y k := by
            intro y hy
            exact ⟨h1 y hy, h4 y hy⟩
          have h1' : ∀ y ∈ P, StepN g s y (k + 1) := by
            intro y hy
            obtain ⟨u, hu, e, he, rfl⟩ := horig y hy
            exact (h1 u hu).succ ⟨e, he, rfl⟩
          have h2' : ∀ y j, j ≤ k + 1 → StepN g s y j →
              y ∈ v ∪ P.toFinset := by
            intro y j hj hstep
            rcases Nat.lt_or_ge j (k + 1) with hlt | hge
            · exact Finset.mem_union_left _ (h2 y j (by omega) hstep)
            · obtain rfl : j = k + 1 := by omega
              obtain ⟨u, hu, hadj⟩ := StepN_succ_inv hstep
              have huv : u ∈ v := h2 u k (le_refl _) hu
              by_cases hul : u ∈ (x :: xs)
              · obtain ⟨e, he, rfl⟩ := hadj
                exact hcov u hul e he
              · obtain ⟨e, he, rfl⟩ := hadj
                exact Finset.mem_union_left _ (h3 u huv hul e he)
          have h3' : ∀ u ∈ v ∪ P.toFinset, u ∉ P →
              ∀ e ∈ g.edgesOf u, e.dest ∈ v ∪ P.toFinset := by
            intro u hu hup e he
            rcases Finset.mem_union.mp hu with hu | hu
            · by_cases hul : u ∈ (x :: xs)
              · exact hcov u hul e he
              · exact Finset.mem_union_left _ (h3 u hu hul e he)
            · exact absurd (List.mem_toFinset.mp hu) hup
          have h4' : ∀ y ∈ P, ∀ j < k + 1, ¬StepN g s y j := by
            intro y hy j hj hstep
            exact hfresh y hy (h2 y j (by omega) hstep)
          have hrec := ih (processLevel g ([], v) (x :: xs)).1
            (processLevel g ([], v) (x :: xs)).2 (k + 1)
            (by rw [hq]; exact h1') (by rw [hq]; exact h2')
            (by rw [hq]; exact h3') (by rw [hq]; exact h4')
          rw [bfsLevels]
          rw [List.flatten_cons]
          constructor
          · rw [List.pairwise_append]
            refine ⟨?_, hrec.1, ?_⟩
            · rw [List.pairwise_iff_forall_sublist]
              intro a b hsub
              intro da db hda hdb
              have ha : a ∈ (x :: xs) := hsub.subset (List.mem_cons_self _ _)
              have hb : b ∈ (x :: xs) :=
                hsub.subset (List.mem_cons_of_mem _ (List.mem_singleton_self _))
              rw [IsBfsDepth_unique hda (hdepth a ha),
                IsBfsDepth_unique hdb (hdepth b hb)]
            · intro a ha b hb da db hda hdb
              have := hrec.2 b hb db hdb
              rw [IsBfsDepth_unique hda (hdepth a ha)]
              omega
          · intro b hb db hdb
            rcases List.mem_append.mp hb with hb | hb
            · rw [IsBfsDepth_unique hdb (hdepth b hb)]
            · have := hrec.2 b hb db hdb
              omega

/-- Claim C3: the visitation order of the always-continue traversal is the
deterministic level-by-level order: the trace equals the concatenation of
the breadth-first generations produced by `processLevel` (which processes
the previous generation's nodes in visitation order and each node's edge
list in stored insertion order — hence siblings of a common parent appear in
that parent's edge order); the trace is sorted by breadth-first depth (depth
`d` before depth `d + 1`); and on the spec's scenario (payloads `[1,2,3,4]`,
edges 1→2, 2→3, 1→4) the traversal from the node holding 1 visits payloads
in the order 1, 2, 4, 3. -/
theorem claim_C3 :
    (∀ (g : Graph T V) (from_index : Nat), g.WF →
      from_index < g.node_count →
      ∃ tr vf, g.visit_breadth_first from_index ptrue = some (tr, [], vf) ∧
        tr = (bfsLevels g (g.destsList.length + 1) [from_index]
          {from_index}).flatten ∧
        List.Pairwise (fun a b => ∀ da db, IsBfsDepth g from_index a da →
          IsBfsDepth g from_index b db → da ≤ db) tr) ∧
    (bfsScenario.visit_breadth_first 0 ptrue).map
        (fun r => (r.1, r.1.map bfsScenario.get)) =
      some ([0, 1, 3, 2], [some 1, some 2, some 4, some 3]) := by
  constructor
  · intro g from_index hwf hfrom
    have hfuel : [from_index].length +
        (g.allDests \ {from_index}).card ≤ g.destsList.length + 1 := by
      have h1 : (g.allDests \ {from_index}).card ≤ g.allDests.card :=
        Finset.card_le_card (Finset.sdiff_subset)
      have h2 := allDests_card_le g
      simp only [List.length_singleton]
      omega
    obtain ⟨tr, vf, hrun, hnd, hvf, hiff, hclose, _, hR⟩ :=
      bfs_run hwf (g.destsList.length + 1) [from_index] {from_index} hfuel
        (List.nodup_singleton _)
        (by intro x hx; simp at hx; simp [hx])
        (by intro x hx; rw [Finset.mem_singleton] at hx; subst hx; exact hfrom)
    have hflat : tr = (bfsLevels g (g.destsList.length + 1) [from_index]
        {from_index}).flatten := by
      refine bfs_trace_flatten hwf (g.destsList.length + 1)
        (g.destsList.length + 1) [from_index] {from_index} tr vf
        ?_ ?_ hfuel (le_refl _) hrun
      · intro x hx; simp at hx; simp [hx]
      · intro x hx; rw [Finset.mem_singleton] at hx; subst hx; exact hfrom
    have hpw := bfsLevels_depth (g := g) (s := from_index) (g.destsList.length + 1)
      [from_index] {from_index} 0
      (by
        intro x hx
        rw [List.mem_singleton] at hx
        subst hx
        exact StepN.zero)
      (by
        intro x j hj hstep
        obtain rfl : j = 0 := by omega
        rw [StepN_zero_inv hstep]
        exact Finset.mem_singleton_self _)
      (by
        intro u hu hul
        rw [Finset.mem_singleton] at hu
        subst hu
        exact absurd (List.mem_singleton_self _) hul)
      (by
        intro x hx j hj
        omega)
    refine ⟨tr, vf, hrun, hflat, ?_⟩
    rw [hflat]
    exact hpw.1
  · rfl

/-- Concrete instance of C3's universal part at the scenario graph. -/
theorem claim_C3_witness :
    ∃ tr vf, bfsScenario.visit_breadth_first 0 ptrue = some (tr, [], vf) ∧
      tr = (bfsLevels bfsScenario (bfsScenario.destsList.length + 1) [0]
        {0}).flatten ∧
      List.Pairwise (fun a b => ∀ da db, IsBfsDepth bfsScenario 0 a da →
        IsBfsDepth bfsScenario 0 b db → da ≤ db) tr :=
  claim_C3.1 bfsScenario 0 (by constructor <;> decide) (by decide)

end ClaimC3

/-! ## Dijkstra invariants

`S` is a ghost set of settled nodes (popped with an up-to-date cost), `ρ` a
ghost ranking certifying that the `prev` chains strictly descend in
`(dist, ρ)` lexicographic order (hence are acyclic), and `exempt` marks the
one node whose frontier queue entry was just popped and is being relaxed. -/

section DijkstraInv

variable {T : Type}

/-- The loop invariant of `shortest_path`'s main loop. -/
structure DInv (g : Graph T Nat) (s : Nat) (st : DState) (S : Finset Nat)
    (ρ : Nat → Nat) (exempt : Option Nat) : Prop where
  hdl : st.dist.length = g.node_count
  hpl : st.prev.length = g.node_count
  hsound : ∀ v c, st.dist[v]? = some (some c) → Dista g s v c
  hzero : st.dist[s]? = some (some 0)
  hpq : ∀ nc ∈ st.pq, nc.node < g.node_count ∧ Dista g s nc.node nc.cost ∧
    ∃ d, st.dist[nc.node]? = some (some d) ∧ d ≤ nc.cost
  hset : ∀ u ∈ S, ∃ du, st.dist[u]? = some (some du) ∧
    ∀ c, Dista g s u c → du ≤ c
  hrelaxed : ∀ u ∈ S, ∀ e ∈ g.edgesOf u, ∀ du,
    st.dist[u]? = some (some du) →
    ∃ dv, st.dist[e.dest]? = some (some dv) ∧ dv ≤ du + e.data
  hfront : ∀ v, v ∉ S → exempt ≠ some v → ∀ dv,
    st.dist[v]? = some (some dv) →
    ∃ nc ∈ st.pq, nc.node = v ∧ nc.cost = dv
  hprev : ∀ v u, st.prev[v]? = some (some u) →
    u < g.node_count ∧ v ≠ s ∧ (∃ e ∈ g.edgesOf u, e.dest = v) ∧
    ∃ du dv, st.dist[u]? = some (some du) ∧ st.dist[v]? = some (some dv) ∧
      (du < dv ∨ (du = dv ∧ ρ u < ρ v))
  hprevTot : ∀ v, v < g.node_count → v ≠ s →
    (∃ dv, st.dist[v]? = some (some dv)) →
    ∃ u, st.prev[v]? = some (some u)

/-- Every path cost to any node is matched either by an already recorded
distance or by a queue entry of no larger cost (the crux of Dijkstra's
greedy argument, adapted to the lazy-deletion queue). -/
theorem dist_or_pq {g : Graph T Nat} {s : Nat} {st : DState} {S : Finset Nat}
    {ρ : Nat → Nat} (inv : DInv g s st S ρ none) :
    ∀ x cP, Dista g s x cP →
      (∃ dx, st.dist[x]? = some (some dx) ∧ dx ≤ cP) ∨
      (∃ nc ∈ st.pq, nc.cost ≤ cP) := by
  intro x cP hpath
  induction hpath with
  | base => exact Or.inl ⟨0, inv.hzero, le_refl _⟩
  | step hu he ih =>
      rename_i u c e
      rcases ih with ⟨du, hdu, hduc⟩ | ⟨nc, hnc, hncc⟩
      · by_cases huS : u ∈ S
        · obtain ⟨dv, hdv, hle⟩ := inv.hrelaxed u huS e he du hdu
          exact Or.inl ⟨dv, hdv, by omega⟩
        · obtain ⟨nc, hnc, -, hcost⟩ := inv.hfront u huS (by simp) du hdu
          exact Or.inr ⟨nc, hnc, by omega⟩
      · exact Or.inr ⟨nc, hnc, by omega⟩

theorem relaxEdge_isSome {cur : NodeCost} {st : DState} {e : Edge Nat}
    (h : ∃ c₀, st.dist[e.dest]? = some c₀) :
    ∃ st', relaxEdge cur st e = some st' := by
  obtain ⟨c₀, hc⟩ := h
  unfold relaxEdge
  rw [hc]
  dsimp only
  split
  · exact ⟨_, rfl⟩
  · exact ⟨_, rfl⟩

/-- One relaxation step preserves the invariant (with the popped node's
frontier entry exempted), only lowers recorded distances, leaves the popped
node's distance unchanged, leaves the relaxed edge's destination with a
distance at most `cur.cost + e.data`, and only appends to the queue. -/
theorem relaxEdge_pres {g : Graph T Nat} {s : Nat} (hwf : g.WF)
    {cur : NodeCost} {S : Finset Nat} {st : DState} {ρ : Nat → Nat}
    {e : Edge Nat}
    (inv : DInv g s st S ρ (some cur.node))
    (hcur : Dista g s cur.node cur.cost)
    (he : e ∈ g.edgesOf cur.node)
    (hcd : ∃ dc, st.dist[cur.node]? = some (some dc) ∧ dc ≤ cur.cost) :
    ∃ (st' : DState) (ρ' : Nat → Nat), relaxEdge cur st e = some st' ∧
      DInv g s st' S ρ' (some cur.node) ∧
      (∀ (w dw : Nat), st.dist[w]? = some (some dw) →
        ∃ dw' : Nat, st'.dist[w]? = some (some dw') ∧ dw' ≤ dw) ∧
      st'.dist[cur.node]? = st.dist[cur.node]? ∧
      (∃ dv : Nat, st'.dist[e.dest]? = some (some dv) ∧
        dv ≤ cur.cost + e.data) ∧
      (∀ nc ∈ st.pq, nc ∈ st'.pq) := by
  obtain ⟨dc, hdc, hdcle⟩ := hcd
  have hdn : e.dest < g.node_count := hwf.dest_lt he
  have hdld : e.dest < st.dist.length := by rw [inv.hdl]; exact hdn
  have hpld : e.dest < st.prev.length := by rw [inv.hpl]; exact hdn
  have hcn : cur.node < g.node_count := by
    obtain ⟨h, -⟩ := List.getElem?_eq_some.mp hdc
    rw [← inv.hdl]
    exact h
  obtain ⟨st', hst'⟩ :=
    @relaxEdge_isSome cur st e ⟨st.dist[e.dest], List.getElem?_eq_getElem hdld⟩
  rcases relaxEdge_inv hst' with ⟨c, hgetc, hnlt, rfl⟩ | ⟨hcase, rfl⟩
  · refine ⟨st', ρ, hst', inv, ?_, rfl, ⟨c, hgetc, by omega⟩, ?_⟩
    · intro w dw hw
      exact ⟨dw, hw, le_refl _⟩
    · intro nc hnc
      exact hnc
  · have hcandD : Dista g s e.dest (cur.cost + e.data) := hcur.step he
    have hne_s : e.dest ≠ s := by
      intro hds
      rcases hcase with hnone | ⟨c, hsomec, hlt⟩
      · rw [hds, inv.hzero] at hnone
        cases hnone
      · rw [hds, inv.hzero] at hsomec
        simp only [Option.some_inj] at hsomec
        omega
    have hne_cur : e.dest ≠ cur.node := by
      intro hdcur
      rcases hcase with hnone | ⟨c, hsomec, hlt⟩
      · rw [hdcur, hdc] at hnone
        cases hnone
      · rw [hdcur, hdc] at hsomec
        simp only [Option.some_inj] at hsomec
        omega
    have hnotS : e.dest ∉ S := by
      intro hmem
      obtain ⟨du, hdu, hmin⟩ := inv.hset e.dest hmem
      have hle := hmin _ hcandD
      rcases hcase with hnone | ⟨c, hsomec, hlt⟩
      · rw [hdu] at hnone
        cases hnone
      · rw [hdu] at hsomec
        simp only [Option.some_inj] at hsomec
        omega
    have hdist_at : ∀ w, (relaxUpdate cur st e).dist[w]? =
        if w = e.dest then some (some (cur.cost + e.data)) else st.dist[w]? := by
      intro w
      by_cases hw : w = e.dest
      · subst hw
        rw [if_pos rfl]
        exact List.getElem?_set_self hdld
      · rw [if_neg hw]
        exact List.getElem?_set_ne (fun h => hw h.symm)
    have hprev_at : ∀ w, (relaxUpdate cur st e).prev[w]? =
        if w = e.dest then some (some cur.node) else st.prev[w]? := by
      intro w
      by_cases hw : w = e.dest
      · subst hw
        rw [if_pos rfl]
        exact List.getElem?_set_self hpld
      · rw [if_neg hw]
        exact List.getElem?_set_ne (fun h => hw h.symm)
    have holdlt : ∀ dw, st.dist[e.dest]? = some (some dw) →
        cur.cost + e.data < dw := by
      intro dw hdw
      rcases hcase with hnone | ⟨c, hsomec, hlt⟩
      · rw [hdw] at hnone
        cases hnone
      · rw [hdw] at hsomec
        simp only [Option.some_inj] at hsomec
        omega
    refine ⟨relaxUpdate cur st e, Function.update ρ e.dest (ρ cur.node + 1),
      hst', ?_, ?_, ?_, ?_, ?_⟩
    · constructor
      · show (st.dist.set e.dest (some (cur.cost + e.data))).length = _
        rw [List.length_set]
        exact inv.hdl
      · show (st.prev.set e.dest (some cur.node)).length = _
        rw [List.length_set]
        exact inv.hpl
      · intro v cc hv
        rw [hdist_at] at hv
        by_cases hveq : v = e.dest
        · rw [if_pos hveq] at hv
          simp only [Option.some_inj] at hv
          subst hveq
          rw [← hv]
          exact hcandD
        · rw [if_neg hveq] at hv
          exact inv.hsound v cc hv
      · rw [hdist_at, if_neg (fun h => hne_s h.symm)]
        exact inv.hzero
      · intro nc hnc
        have hnc' : nc ∈ st.pq ++ [(⟨e.dest, cur.cost + e.data⟩ : NodeCost)] := hnc
        rcases List.mem_append.mp hnc' with hnc | hnc
        · obtain ⟨h1, h2, dd, hdd, hddle⟩ := inv.hpq nc hnc
          refine ⟨h1, h2, ?_⟩
          by_cases hveq : nc.node = e.dest
          · refine ⟨cur.cost + e.data, ?_, ?_⟩
            · rw [hdist_at, if_pos hveq]
            · rw [hveq] at hdd
              have := holdlt dd hdd
              omega
          · exact ⟨dd, by rw [hdist_at, if_neg hveq]; exact hdd, hddle⟩
        · rw [List.mem_singleton] at hnc
          subst hnc
          refine ⟨hdn, hcandD, cur.cost + e.data, ?_, le_refl _⟩
          rw [hdist_at, if_pos rfl]
      · intro u hu
        obtain ⟨du, hdu, hmin⟩ := inv.hset u hu
        have hune : u ≠ e.dest := fun h => hnotS (h ▸ hu)
        exact ⟨du, by rw [hdist_at, if_neg hune]; exact hdu, hmin⟩
      · intro u hu e' he' du hdu
        have hune : u ≠ e.dest := fun h => hnotS (h ▸ hu)
        rw [hdist_at, if_neg hune] at hdu
        obtain ⟨dv, hdv, hdvle⟩ := inv.hrelaxed u hu e' he' du hdu
        by_cases hveq : e'.dest = e.dest
        · refine ⟨cur.cost + e.data, ?_, ?_⟩
          · rw [hdist_at, if_pos hveq]
          · rw [hveq] at hdv
            have := holdlt dv hdv
            omega
        · exact ⟨dv, by rw [hdist_at, if_neg hveq]; exact hdv, hdvle⟩
      · intro v hvS hvex dv hdv
        rw [hdist_at] at hdv
        by_cases hveq : v = e.dest
        · rw [if_pos hveq] at hdv
          simp only [Option.some_inj] at hdv
          refine ⟨⟨e.dest, cur.cost + e.data⟩, ?_, hveq.symm, hdv⟩
          exact List.mem_append.mpr (Or.inr (List.mem_singleton_self _))
        · rw [if_neg hveq] at hdv
          obtain ⟨nc, hnc, hn1, hn2⟩ := inv.hfront v hvS hvex dv hdv
          refine ⟨nc, ?_, hn1, hn2⟩
          exact List.mem_append.mpr (Or.inl hnc)
      · intro v u hvu
        rw [hprev_at] at hvu
        by_cases hveq : v = e.dest
        · rw [if_pos hveq] at hvu
          simp only [Option.some_inj] at hvu
          subst hveq
          refine ⟨?_, hne_s, ?_, ?_⟩
          · rw [← hvu]
            exact hcn
          · rw [← hvu]
            exact ⟨e, he, rfl⟩
          · refine ⟨dc, cur.cost + e.data, ?_, ?_, ?_⟩
            · rw [← hvu, hdist_at, if_neg hne_cur.symm]
              exact hdc
            · rw [hdist_at, if_pos rfl]
            · rcases Nat.lt_or_ge dc (cur.cost + e.data) with h | h
              · exact Or.inl h
              · have : dc = cur.cost + e.data := by omega
                refine Or.inr ⟨this, ?_⟩
                rw [← hvu]
                rw [Function.update_noteq (fun hh => hne_cur hh.symm),
                  Function.update_same]
                omega
        · rw [if_neg hveq] at hvu
          obtain ⟨hu1, hu2, hu3, du, dv, hdu, hdv, hrank⟩ := inv.hprev v u hvu
          refine ⟨hu1, hu2, hu3, ?_⟩
          by_cases hueq : u = e.dest
          · subst hueq
            have hlt := holdlt du hdu
            refine ⟨cur.cost + e.data, dv, ?_, ?_, ?_⟩
            · rw [hdist_at, if_pos rfl]
            · rw [hdist_at, if_neg hveq]
              exact hdv
            · left
              rcases hrank with h | ⟨h, -⟩ <;> omega
          · refine ⟨du, dv, ?_, ?_, ?_⟩
            · rw [hdist_at, if_neg hueq]
              exact hdu
            · rw [hdist_at, if_neg hveq]
              exact hdv
            · rcases hrank with h | ⟨h1, h2⟩
              · exact Or.inl h
              · refine Or.inr ⟨h1, ?_⟩
                rw [Function.update_noteq hueq, Function.update_noteq hveq]
                exact h2
      · intro v hv hvs hdvex
        by_cases hveq : v = e.dest
        · subst hveq
          exact ⟨cur.node, by rw [hprev_at, if_pos rfl]⟩
        · obtain ⟨dv, hdv⟩ := hdvex
          rw [hdist_at, if_neg hveq] at hdv
          obtain ⟨u, hu⟩ := inv.hprevTot v hv hvs ⟨dv, hdv⟩
          exact ⟨u, by rw [hprev_at, if_neg hveq]; exact hu⟩
    · intro w dw hw
      by_cases hveq : w = e.dest
      · have hlt := holdlt dw (hveq ▸ hw)
        refine ⟨cur.cost + e.data, ?_, by omega⟩
        rw [hdist_at, if_pos hveq]
      · exact ⟨dw, by rw [hdist_at, if_neg hveq]; exact hw, le_refl _⟩
    · rw [hdist_at, if_neg hne_cur.symm]
    · refine ⟨cur.cost + e.data, ?_, le_refl _⟩
      rw [hdist_at, if_pos rfl]
    · intro nc hnc
      exact List.mem_append.mpr (Or.inl hnc)

/-- The whole edge loop preserves the invariant and leaves every processed
edge relaxed. -/
theorem relaxAll_pres {g : Graph T Nat} {s : Nat} (hwf : g.WF)
    {cur : NodeCost} {S : Finset Nat}
    (hcur : Dista g s cur.node cur.cost) :
    ∀ (es : List (Edge Nat)) (st : DState) (ρ : Nat → Nat),
      DInv g s st S ρ (some cur.node) →
      (∀ e ∈ es, e ∈ g.edgesOf cur.node) →
      (∃ dc : Nat, st.dist[cur.node]? = some (some dc) ∧ dc ≤ cur.cost) →
      ∃ (st' : DState) (ρ' : Nat → Nat), relaxAll cur st es = some st' ∧
        DInv g s st' S ρ' (some cur.node) ∧
        (∀ (w dw : Nat), st.dist[w]? = some (some dw) →
          ∃ dw' : Nat, st'.dist[w]? = some (some dw') ∧ dw' ≤ dw) ∧
        st'.dist[cur.node]? = st.dist[cur.node]? ∧
        (∀ e ∈ es, ∃ dv : Nat, st'.dist[e.dest]? = some (some dv) ∧
          dv ≤ cur.cost + e.data) ∧
        (∀ nc ∈ st.pq, nc ∈ st'.pq) := by
  intro es
  induction es with
  | nil =>
      intro st ρ inv _ _
      refine ⟨st, ρ, rfl, inv, ?_, rfl, ?_, ?_⟩
      · intro w dw hw
        exact ⟨dw, hw, le_refl _⟩
      · intro e he
        cases he
      · intro nc hnc
        exact hnc
  | cons e es ih =>
      intro st ρ inv hmem hcd
      obtain ⟨st₁, ρ₁, hrel1, inv₁, hmono1, hstable1, hpost1, hpq1⟩ :=
        relaxEdge_pres hwf inv hcur (hmem e (List.mem_cons_self _ _)) hcd
      obtain ⟨dc, hdc, hdcle⟩ := hcd
      obtain ⟨st', ρ', hrel2, inv', hmono2, hstable2, hpost2, hpq2⟩ :=
        ih st₁ ρ₁ inv₁ (fun e' he' => hmem e' (List.mem_cons_of_mem _ he'))
          ⟨dc, by rw [hstable1]; exact hdc, hdcle⟩
      refine ⟨st', ρ', ?_, inv', ?_, ?_, ?_, ?_⟩
      · unfold relaxAll
        rw [hrel1]
        exact hrel2
      · intro w dw hw
        obtain ⟨dw₁, hdw₁, h₁⟩ := hmono1 w dw hw
        obtain ⟨dw₂, hdw₂, h₂⟩ := hmono2 w dw₁ hdw₁
        exact ⟨dw₂, hdw₂, by omega⟩
      · rw [hstable2, hstable1]
      · intro e' he'
        rcases List.mem_cons.mp he' with rfl | he''
        · obtain ⟨dv, hdv, hle⟩ := hpost1
          obtain ⟨dv', hdv', hle'⟩ := hmono2 e'.dest dv hdv
          exact ⟨dv', hdv', by omega⟩
        · exact hpost2 e' he''
      · intro nc hnc
        exact hpq2 nc (hpq1 nc hnc)

/-- What survives of the invariant at the end of the main loop (whether by
queue exhaustion or by the early break at `to_node`): recorded distances are
sound, the distance recorded at `to_node` is below every path cost to it,
and the `prev` entries form rank-decreasing chains. -/
structure QFinal (g : Graph T Nat) (s to_node : Nat) (stF : DState) : Prop where
  hdl : stF.dist.length = g.node_count
  hpl : stF.prev.length = g.node_count
  hsound : ∀ v c, stF.dist[v]? = some (some c) → Dista g s v c
  hcomplete : ∀ c, Dista g s to_node c →
    ∃ d, stF.dist[to_node]? = some (some d) ∧ d ≤ c
  hprevrk : ∃ ρ : Nat → Nat, ∀ v u, stF.prev[v]? = some (some u) →
    u < g.node_count ∧ v ≠ s ∧
    ∃ du dv, stF.dist[u]? = some (some du) ∧ stF.dist[v]? = some (some dv) ∧
      (du < dv ∨ (du = dv ∧ ρ u < ρ v))
  hprevTot : ∀ v, v < g.node_count → v ≠ s →
    (∃ dv, stF.dist[v]? = some (some dv)) →
    ∃ u, stF.prev[v]? = some (some u)

theorem edgesOf_of_getElem {g : Graph T Nat} {u : Nat} {l : List (Edge Nat)}
    (h : g.edges[u]? = some l) : g.edgesOf u = l := by
  unfold Graph.edgesOf
  rw [List.getD_eq_getElem?_getD, h]
  rfl

/-- The main loop always ends without a panic when started in the invariant,
and its final state satisfies `QFinal`. -/
theorem dijkstraLoop_post {g : Graph T Nat} (hwf : g.WF) {s to_node : Nat} :
    ∀ st : DState, (∃ S ρ, DInv g s st S ρ none) →
      ∃ stF, dijkstraLoop g to_node st = some stF ∧ QFinal g s to_node stF := by
  intro st
  induction st using dijkstraLoop.induct g to_node with
  | case1 st hpop =>
      rintro ⟨S, ρ, inv⟩
      have hempty : st.pq = [] := popMin_eq_none.mp hpop
      refine ⟨st, dijkstraLoop_pop_none hpop, ?_⟩
      refine ⟨inv.hdl, inv.hpl, inv.hsound, ?_, ⟨ρ, ?_⟩, inv.hprevTot⟩
      · intro c hc
        rcases dist_or_pq inv to_node c hc with ⟨dx, hdx, hle⟩ | ⟨nc, hnc, -⟩
        · exact ⟨dx, hdx, hle⟩
        · rw [hempty] at hnc
          cases hnc
      · intro v u hvu
        obtain ⟨h1, h2, -, h4⟩ := inv.hprev v u hvu
        exact ⟨h1, h2, h4⟩
  | case2 st cur rest hpop hto =>
      rintro ⟨S, ρ, inv⟩
      have hcurmem : cur ∈ st.pq :=
        (popMin_perm hpop).subset (List.mem_cons_self _ _)
      obtain ⟨hcn, hcurD, dcq, hdcq, hdcqle⟩ := inv.hpq cur hcurmem
      refine ⟨{ st with pq := rest }, dijkstraLoop_break hpop hto, ?_⟩
      refine ⟨inv.hdl, inv.hpl, inv.hsound, ?_, ⟨ρ, ?_⟩, inv.hprevTot⟩
      · intro c hc
        rcases dist_or_pq inv to_node c hc with ⟨dx, hdx, hle⟩ | ⟨nc, hnc, hle⟩
        · exact ⟨dx, hdx, hle⟩
        · have hmin := popMin_min hpop nc hnc
          rw [hto] at hdcq
          exact ⟨dcq, hdcq, by omega⟩
      · intro v u hvu
        obtain ⟨h1, h2, -, h4⟩ := inv.hprev v u hvu
        exact ⟨h1, h2, h4⟩
  | case3 st cur rest hpop hto hconn =>
      rintro ⟨S, ρ, inv⟩
      have hcurmem : cur ∈ st.pq :=
        (popMin_perm hpop).subset (List.mem_cons_self _ _)
      obtain ⟨hcn, -, -⟩ := inv.hpq cur hcurmem
      exfalso
      rw [List.getElem?_eq_none_iff] at hconn
      have := hwf.1
      unfold Graph.node_count at hcn
      omega
  | case4 st cur rest hpop hto es hconn hrel =>
      rintro ⟨S, ρ, inv⟩
      have hcurmem : cur ∈ st.pq :=
        (popMin_perm hpop).subset (List.mem_cons_self _ _)
      obtain ⟨hcn, hcurD, dcq, hdcq, hdcqle⟩ := inv.hpq cur hcurmem
      have hes : g.edgesOf cur.node = es := edgesOf_of_getElem hconn
      have inv₁ : DInv g s { st with pq := rest } S ρ (some cur.node) := by
        constructor
        · exact inv.hdl
        · exact inv.hpl
        · exact inv.hsound
        · exact inv.hzero
        · intro nc hnc
          exact inv.hpq nc
            ((popMin_perm hpop).subset (List.mem_cons_of_mem _ hnc))
        · exact inv.hset
        · exact inv.hrelaxed
        · intro v hvS hvex dv hdv
          obtain ⟨nc, hnc, h1, h2⟩ := inv.hfront v hvS (by simp) dv hdv
          refine ⟨nc, ?_, h1, h2⟩
          have hmem : nc ∈ cur :: rest := (popMin_perm hpop).symm.subset hnc
          rcases List.mem_cons.mp hmem with rfl | h
          · exfalso
            apply hvex
            rw [h1]
          · exact h
        · exact inv.hprev
        · exact inv.hprevTot
      obtain ⟨st', ρ', hrel', -⟩ :=
        relaxAll_pres hwf hcurD es { st with pq := rest } ρ inv₁
          (by intro e' he'; rw [hes]; exact he')
          ⟨dcq, hdcq, hdcqle⟩
      rw [hrel] at hrel'
      cases hrel'
  | case5 st cur rest hpop hto es hconn st'' hrel ih =>
      rintro ⟨S, ρ, inv⟩
      have hcurmem : cur ∈ st.pq :=
        (popMin_perm hpop).subset (List.mem_cons_self _ _)
      obtain ⟨hcn, hcurD, dcq, hdcq, hdcqle⟩ := inv.hpq cur hcurmem
      have hes : g.edgesOf cur.node = es := edgesOf_of_getElem hconn
      have inv₁ : DInv g s { st with pq := rest } S ρ (some cur.node) := by
        constructor
        · exact inv.hdl
        · exact inv.hpl
        · exact inv.hsound
        · exact inv.hzero
        · intro nc hnc
          exact inv.hpq nc
            ((popMin_perm hpop).subset (List.mem_cons_of_mem _ hnc))
        · exact inv.hset
        · exact inv.hrelaxed
        · intro v hvS hvex dv hdv
          obtain ⟨nc, hnc, h1, h2⟩ := inv.hfront v hvS (by simp) dv hdv
          refine ⟨nc, ?_, h1, h2⟩
          have hmem : nc ∈ cur :: rest := (popMin_perm hpop).symm.subset hnc
          rcases List.mem_cons.mp hmem with rfl | h
          · exfalso
            apply hvex
            rw [h1]
          · exact h
        · exact inv.hprev
        · exact inv.hprevTot
      obtain ⟨st', ρ', hrel', inv', hmono, hstable, hpost, hpqmono⟩ :=
        relaxAll_pres hwf hcurD es { st with pq := rest } ρ inv₁
          (by intro e' he'; rw [hes]; exact he')
          ⟨dcq, hdcq, hdcqle⟩
      rw [hrel] at hrel'
      injection hrel' with hrel''
      subst hrel''
      by_cases hS : cur.node ∈ S
      · have invF : DInv g s st'' S ρ' none := by
          constructor
          · exact inv'.hdl
          · exact inv'.hpl
          · exact inv'.hsound
          · exact inv'.hzero
          · exact inv'.hpq
          · exact inv'.hset
          · exact inv'.hrelaxed
          · intro v hvS _ dv hdv
            refine inv'.hfront v hvS ?_ dv hdv
            intro hcontra
            simp only [Option.some_inj] at hcontra
            rw [hcontra] at hS
            exact hvS hS
          · exact inv'.hprev
          · exact inv'.hprevTot
        obtain ⟨stF, hloopF, hQ⟩ := ih ⟨S, ρ', invF⟩
        exact ⟨stF, by rw [dijkstraLoop_step hpop hto hconn hrel]; exact hloopF,
          hQ⟩
      · obtain ⟨nc', hnc', hn1, hn2⟩ := inv.hfront cur.node hS (by simp) dcq hdcq
        have hmincur := popMin_min hpop nc' hnc'
        have hdceq : dcq = cur.cost := by omega
        have hminimal : ∀ cP, Dista g s cur.node cP → dcq ≤ cP := by
          intro cP hc
          rcases dist_or_pq inv cur.node cP hc with ⟨dx, hdx, hle⟩ |
            ⟨nc, hnc, hle⟩
          · rw [hdcq] at hdx
            simp only [Option.some_inj] at hdx
            omega
          · have := popMin_min hpop nc hnc
            omega
        have invF : DInv g s st'' (insert cur.node S) ρ' none := by
          constructor
          · exact inv'.hdl
          · exact inv'.hpl
          · exact inv'.hsound
          · exact inv'.hzero
          · exact inv'.hpq
          · intro u hu
            rcases Finset.mem_insert.mp hu with rfl | hu'
            · exact ⟨dcq, by rw [hstable]; exact hdcq, hminimal⟩
            · exact inv'.hset u hu'
          · intro u hu e' he' du hdu
            rcases Finset.mem_insert.mp hu with rfl | hu'
            · have hdu' : du = dcq := by
                rw [hstable, hdcq] at hdu
                simp only [Option.some_inj] at hdu
                omega
              obtain ⟨dv, hdv, hle⟩ := hpost e' (by rw [← hes]; exact he')
              exact ⟨dv, hdv, by omega⟩
            · exact inv'.hrelaxed u hu' e' he' du hdu
          · intro v hvS _ dv hdv
            rw [Finset.mem_insert] at hvS
            push_neg at hvS
            refine inv'.hfront v hvS.2 ?_ dv hdv
            intro hcontra
            simp only [Option.some_inj] at hcontra
            exact hvS.1 hcontra.symm
          · exact inv'.hprev
          · exact inv'.hprevTot
        obtain ⟨stF, hloopF, hQ⟩ := ih ⟨insert cur.node S, ρ', invF⟩
        exact ⟨stF, by rw [dijkstraLoop_step hpop hto hconn hrel]; exact hloopF,
          hQ⟩

/-- The invariant holds in the initial state built by `shortest_path`. -/
theorem DInv_init {g : Graph T Nat} {s : Nat} (hs : s < g.node_count) :
    DInv g s
      ⟨(List.replicate g.node_count (none : Option Nat)).set s (some 0),
       List.replicate g.node_count none, [⟨s, 0⟩]⟩
      ∅ (fun _ => 0) none := by
  have hlen : ((List.replicate g.node_count (none : Option Nat)).set s
      (some 0)).length = g.node_count := by
    rw [List.length_set, List.length_replicate]
  have hd0 : ∀ w, ((List.replicate g.node_count (none : Option Nat)).set s
      (some 0))[w]? = if w = s then some (some 0)
        else if w < g.node_count then some none else none := by
    intro w
    by_cases hw : w = s
    · subst hw
      rw [if_pos rfl]
      exact List.getElem?_set_self (by rw [List.length_replicate]; exact hs)
    · rw [if_neg hw, List.getElem?_set_ne (fun h => hw h.symm),
        List.getElem?_replicate]
  have hp0 : ∀ w, (List.replicate g.node_count
      (none : Option Nat))[w]? = if w < g.node_count then some none
        else none := by
    intro w
    rw [List.getElem?_replicate]
  constructor
  · exact hlen
  · exact List.length_replicate ..
  · intro v c hv
    rw [hd0] at hv
    by_cases hvs : v = s
    · rw [if_pos hvs] at hv
      simp only [Option.some_inj] at hv
      subst hvs
      rw [← hv]
      exact Dista.base
    · rw [if_neg hvs] at hv
      by_cases hvn : v < g.node_count
      · rw [if_pos hvn] at hv
        cases hv
      · rw [if_neg hvn] at hv
        cases hv
  · rw [hd0, if_pos rfl]
  · intro nc hnc
    rw [List.mem_singleton] at hnc
    subst hnc
    exact ⟨hs, Dista.base, 0, by rw [hd0, if_pos rfl], le_refl _⟩
  · intro u hu
    exact absurd hu (Finset.not_mem_empty u)
  · intro u hu
    exact absurd hu (Finset.not_mem_empty u)
  · intro v _ _ dv hdv
    rw [hd0] at hdv
    by_cases hvs : v = s
    · rw [if_pos hvs] at hdv
      simp only [Option.some_inj] at hdv
      exact ⟨⟨s, 0⟩, List.mem_singleton_self _, hvs.symm, hdv⟩
    · rw [if_neg hvs] at hdv
      by_cases hvn : v < g.node_count
      · rw [if_pos hvn] at hdv
        cases hdv
      · rw [if_neg hvn] at hdv
        cases hdv
  · intro v u hvu
    rw [hp0] at hvu
    by_cases hvn : v < g.node_count
    · rw [if_pos hvn] at hvu
      cases hvu
    · rw [if_neg hvn] at hvu
      cases hvu
  · intro v hv hvs hdv
    obtain ⟨dv, hdv⟩ := hdv
    rw [hd0, if_neg hvs, if_pos hv] at hdv
    cases hdv

/-- The recorded distance as a total function (used only to rank nodes). -/
def dval (distl : List (Option Nat)) (w : Nat) : Nat :=
  match distl[w]? with
  | some (some d) => d
  | _ => 0

/-- The reconstruction loop succeeds: the `prev` chain from any node with a
recorded distance strictly descends in `(dist, ρ)` lexicographic rank, so it
reaches `s` after at most `n` hops and never meets an absent predecessor. -/
theorem buildPath_ok {n s : Nat} {prevl distl : List (Option Nat)}
    {ρ : Nat → Nat}
    (hprev : ∀ v u, prevl[v]? = some (some u) → u < n ∧ v ≠ s ∧
      ∃ du dv, distl[u]? = some (some du) ∧ distl[v]? = some (some dv) ∧
        (du < dv ∨ (du = dv ∧ ρ u < ρ v)))
    (hprevTot : ∀ v, v < n → v ≠ s → (∃ dv, distl[v]? = some (some dv)) →
      ∃ u, prevl[v]? = some (some u)) :
    ∀ (fuel current : Nat) (acc : List Nat),
      current < n → (∃ dc, distl[current]? = some (some dc)) →
      ((Finset.range n).filter (fun w =>
        dval distl w < dval distl current ∨
        (dval distl w = dval distl current ∧ ρ w < ρ current))).card + 1 ≤
        fuel →
      ∃ p, buildPath prevl s fuel current acc = some p := by
  intro fuel
  induction fuel with
  | zero =>
      intro current acc _ _ hf
      omega
  | succ f ih =>
      intro current acc hcur hdist hfuel
      by_cases hcs : current = s
      · refine ⟨(acc ++ [s]).reverse, ?_⟩
        simp only [buildPath]
        rw [if_pos hcs]
      · obtain ⟨u, hu⟩ := hprevTot current hcur hcs hdist
        obtain ⟨hun, -, du, dv, hdu, hdv, hrank⟩ := hprev current u hu
        have h1 : dval distl u = du := by unfold dval; rw [hdu]
        have h2 : dval distl current = dv := by unfold dval; rw [hdv]
        have hrkless : dval distl u < dval distl current ∨
            (dval distl u = dval distl current ∧ ρ u < ρ current) := by
          rw [h1, h2]
          exact hrank
        have hsub : (Finset.range n).filter (fun w =>
            dval distl w < dval distl u ∨
            (dval distl w = dval distl u ∧ ρ w < ρ u)) ⊆
            (Finset.range n).filter (fun w =>
            dval distl w < dval distl current ∨
            (dval distl w = dval distl current ∧ ρ w < ρ current)) := by
          intro w hw
          rw [Finset.mem_filter] at hw ⊢
          refine ⟨hw.1, ?_⟩
          have := hw.2
          rcases hrkless with hc | ⟨hc1, hc2⟩ <;> rcases this with h | ⟨ha, hb⟩
          · left; omega
          · left; omega
          · left; omega
          · right
            constructor
            · omega
            · omega
        have humem : u ∈ (Finset.range n).filter (fun w =>
            dval distl w < dval distl current ∨
            (dval distl w = dval distl current ∧ ρ w < ρ current)) := by
          rw [Finset.mem_filter]
          exact ⟨Finset.mem_range.mpr hun, hrkless⟩
        have hunot : u ∉ (Finset.range n).filter (fun w =>
            dval distl w < dval distl u ∨
            (dval distl w = dval distl u ∧ ρ w < ρ u)) := by
          rw [Finset.mem_filter]
          rintro ⟨-, h | ⟨-, h⟩⟩ <;> omega
        have hlt : ((Finset.range n).filter (fun w =>
            dval distl w < dval distl u ∨
            (dval distl w = dval distl u ∧ ρ w < ρ u))).card <
            ((Finset.range n).filter (fun w =>
            dval distl w < dval distl current ∨
            (dval distl w = dval distl current ∧ ρ w < ρ current))).card := by
          apply Finset.card_lt_card
          rw [Finset.ssubset_def]
          refine ⟨hsub, ?_⟩
          intro hsup
          exact hunot (hsup humem)
        obtain ⟨p, hp⟩ := ih u (acc ++ [current]) hun ⟨du, hdu⟩ (by omega)
        refine ⟨p, ?_⟩
        simp only [buildPath]
        rw [if_neg hcs, hu]
        exact hp

end DijkstraInv

/-! ## Claims C1, C5, C10 -/

section DijkstraClaims

variable {T : Type}

theorem reachable_iff_dista {g : Graph T Nat} {a b : Nat} :
    Reachable g a b ↔ ∃ c, Dista g a b c := by
  constructor
  · rintro ⟨k, hk⟩
    induction hk with
    | zero => exact ⟨0, Dista.base⟩
    | succ hb hadj ih =>
        obtain ⟨c, hc⟩ := ih
        obtain ⟨e, he, rfl⟩ := hadj
        exact ⟨c + e.data, hc.step he⟩
  · rintro ⟨c, hc⟩
    induction hc with
    | base => exact ⟨0, StepN.zero⟩
    | step hu he ih =>
        obtain ⟨k, hk⟩ := ih
        exact ⟨k + 1, hk.succ ⟨_, he, rfl⟩⟩

/-- Claim C5: `shortest_path(x, x)` on a valid identifier returns the
one-element path `[x]` with cost zero (the first pop is `x` itself, which
equals the target, so the loop breaks immediately and the reconstruction
loop stops at once). -/
theorem claim_C5 (g : Graph T Nat) (x : Nat) (hx : x < g.node_count) :
    g.shortest_path x x = some (some ⟨[x], 0⟩) := by
  unfold Graph.shortest_path
  rw [if_pos hx]
  have hloop := @dijkstraLoop_break T g x
    ⟨(List.replicate g.node_count (none : Option Nat)).set x (some 0),
     List.replicate g.node_count none, [⟨x, 0⟩]⟩
    ⟨x, 0⟩ [] rfl rfl
  dsimp only
  rw [hloop]
  have hdx : ((List.replicate g.node_count (none : Option Nat)).set x
      (some 0))[x]? = some (some 0) :=
    List.getElem?_set_self (by rw [List.length_replicate]; exact hx)
  dsimp only
  rw [hdx]
  have hbp : buildPath (List.replicate g.node_count none) x
      (g.node_count + 1) x [] = some [x] := by
    simp [buildPath]
  dsimp only
  rw [hbp]

/-- Concrete instance of C5 at the spec's weighted scenario graph. -/
def scenarioGraph : Graph Nat Nat :=
  ⟨[0, 1, 2, 3], [[⟨5, 1⟩, ⟨10, 3⟩], [⟨5, 2⟩, ⟨3, 3⟩], [], []]⟩

/-- The final loop state of the scenario run `shortest_path(0, 3)`. -/
def scenarioFinal : DState :=
  ⟨[some 0, some 5, some 10, some 8], [none, some 0, some 1, some 1],
   [⟨3, 10⟩, ⟨2, 10⟩]⟩

theorem scenario_eval :
    scenarioGraph.shortest_path 0 3 = some (some ⟨[0, 1, 3], 8⟩) := by
  have hF : dijkstraLoopF scenarioGraph 3 10
      ⟨(List.replicate scenarioGraph.node_count (none : Option Nat)).set 0
        (some 0),
       List.replicate scenarioGraph.node_count none, [⟨0, 0⟩]⟩ =
      some (some scenarioFinal) := by decide
  have hW := dijkstraLoopF_agree hF
  unfold Graph.shortest_path
  rw [if_pos (by decide : (0 : Nat) < scenarioGraph.node_count)]
  dsimp only
  rw [hW]
  rfl

theorem claim_C5_witness :
    scenarioGraph.shortest_path 2 2 = some (some ⟨[2], 0⟩) :=
  claim_C5 scenarioGraph 2 (by decide)

/-- Claim C1: on a well-formed graph with valid endpoints, `shortest_path`
returns a result exactly when the target is reachable by a directed path;
any returned cost is realized by a path and is minimal among all directed
path costs; an unreachable target yields the inner `none`; and on the spec's
scenario graph (built here through `insert_all`/`connect_all`),
`shortest_path(0, 3)` returns path `[0, 1, 3]` with cost `8`. -/
theorem claim_C1 (g : Graph T Nat) (from_node to_node : Nat) (hwf : g.WF)
    (hfrom : from_node < g.node_count) (hto : to_node < g.node_count) :
    ((∃ r, g.shortest_path from_node to_node = some (some r)) ↔
      Reachable g from_node to_node) ∧
    (∀ r, g.shortest_path from_node to_node = some (some r) →
      Dista g from_node to_node r.cost ∧
      ∀ c, Dista g from_node to_node c → r.cost ≤ c) ∧
    (¬Reachable g from_node to_node →
      g.shortest_path from_node to_node = some none) ∧
    ((Graph.new (T := Nat) (V := Nat)).insert_all [0, 1, 2, 3]).1.connect_all
        [(0, 1, 5), (1, 2, 5), (0, 3, 10), (1, 3, 3)] = some scenarioGraph ∧
    scenarioGraph.shortest_path 0 3 = some (some ⟨[0, 1, 3], 8⟩) := by
  obtain ⟨stF, hloop, Q⟩ := @dijkstraLoop_post T g hwf from_node to_node
    ⟨(List.replicate g.node_count (none : Option Nat)).set from_node (some 0),
     List.replicate g.node_count none, [⟨from_node, 0⟩]⟩
    ⟨∅, fun _ => 0, DInv_init hfrom⟩
  obtain ⟨c₀, hc₀⟩ : ∃ c₀, stF.dist[to_node]? = some c₀ := by
    have h := List.getElem?_eq_getElem (l := stF.dist) (n := to_node)
      (by rw [Q.hdl]; exact hto)
    exact ⟨_, h⟩
  cases c₀ with
  | none =>
      have hsp : g.shortest_path from_node to_node = some none := by
        unfold Graph.shortest_path
        rw [if_pos hfrom]
        dsimp only
        rw [hloop]
        dsimp only
        rw [hc₀]
      refine ⟨?_, ?_, fun _ => hsp, rfl, scenario_eval⟩
      · constructor
        · rintro ⟨r, hr⟩
          rw [hsp] at hr
          cases hr
        · intro hreach
          obtain ⟨c, hc⟩ := reachable_iff_dista.mp hreach
          obtain ⟨d, hd, -⟩ := Q.hcomplete c hc
          rw [hc₀] at hd
          cases hd
      · intro r hr
        rw [hsp] at hr
        cases hr
  | some d =>
      obtain ⟨ρF, hρF⟩ := Q.hprevrk
      obtain ⟨p, hp⟩ := buildPath_ok (n := g.node_count) (s := from_node)
        hρF Q.hprevTot (g.node_count + 1) to_node [] hto ⟨d, hc₀⟩
        (by
          have h1 : ((Finset.range g.node_count).filter (fun w =>
              dval stF.dist w < dval stF.dist to_node ∨
              (dval stF.dist w = dval stF.dist to_node ∧
                ρF w < ρF to_node))).card ≤ g.node_count := by
            calc ((Finset.range g.node_count).filter _).card ≤
                (Finset.range g.node_count).card := Finset.card_filter_le _ _
              _ = g.node_count := Finset.card_range _
          omega)
      have hsp : g.shortest_path from_node to_node = some (some ⟨p, d⟩) := by
        unfold Graph.shortest_path
        rw [if_pos hfrom]
        dsimp only
        rw [hloop]
        dsimp only
        rw [hc₀]
        dsimp only
        rw [hp]
      have hsound : Dista g from_node to_node d := Q.hsound to_node d hc₀
      refine ⟨?_, ?_, ?_, rfl, scenario_eval⟩
      · constructor
        · intro _
          exact reachable_iff_dista.mpr ⟨d, hsound⟩
        · intro _
          exact ⟨⟨p, d⟩, hsp⟩
      · intro r hr
        rw [hsp] at hr
        simp only [Option.some_inj] at hr
        subst hr
        refine ⟨hsound, ?_⟩
        intro c hc
        obtain ⟨d', hd', hle⟩ := Q.hcomplete c hc
        rw [hc₀] at hd'
        simp only [Option.some_inj] at hd'
        subst hd'
        exact hle
      · intro hun
        exact absurd (reachable_iff_dista.mpr ⟨d, hsound⟩) hun

/-- Concrete instance of C1's reachability equivalence at the scenario
graph. -/
theorem claim_C1_witness :
    (∃ r, scenarioGraph.shortest_path 0 3 = some (some r)) ↔
      Reachable scenarioGraph 0 3 :=
  (claim_C1 scenarioGraph 0 3 (by constructor <;> decide) (by decide)
    (by decide)).1

/-- Claim C10: whenever the main loop ends with a distance recorded at
`to_node`, the backward `prev` reconstruction terminates within the fuel
bound and never unwraps an absent predecessor; consequently `shortest_path`
on valid endpoints of a well-formed graph never panics. -/
theorem claim_C10 (g : Graph T Nat) (from_node to_node : Nat) (hwf : g.WF)
    (hfrom : from_node < g.node_count) (hto : to_node < g.node_count) :
    (∀ stF d, dijkstraLoop g to_node
        ⟨(List.replicate g.node_count (none : Option Nat)).set from_node
          (some 0), List.replicate g.node_count none, [⟨from_node, 0⟩]⟩ =
        some stF →
      stF.dist[to_node]? = some (some d) →
      ∃ p, buildPath stF.prev from_node (g.node_count + 1) to_node [] =
        some p) ∧
    g.shortest_path from_node to_node ≠ none := by
  obtain ⟨stF, hloop, Q⟩ := @dijkstraLoop_post T g hwf from_node to_node
    ⟨(List.replicate g.node_count (none : Option Nat)).set from_node (some 0),
     List.replicate g.node_count none, [⟨from_node, 0⟩]⟩
    ⟨∅, fun _ => 0, DInv_init hfrom⟩
  obtain ⟨ρF, hρF⟩ := Q.hprevrk
  have hbuild : ∀ d, stF.dist[to_node]? = some (some d) →
      ∃ p, buildPath stF.prev from_node (g.node_count + 1) to_node [] =
        some p := by
    intro d hd
    refine buildPath_ok (n := g.node_count) (s := from_node)
      hρF Q.hprevTot (g.node_count + 1) to_node [] hto ⟨d, hd⟩ ?_
    have h1 : ((Finset.range g.node_count).filter (fun w =>
        dval stF.dist w < dval stF.dist to_node ∨
        (dval stF.dist w = dval stF.dist to_node ∧
          ρF w < ρF to_node))).card ≤ g.node_count := by
      calc ((Finset.range g.node_count).filter _).card ≤
          (Finset.range g.node_count).card := Finset.card_filter_le _ _
        _ = g.node_count := Finset.card_range _
    omega
  constructor
  · intro stF' d heq hd
    rw [hloop] at heq
    simp only [Option.some_inj] at heq
    subst heq
    exact hbuild d hd
  · obtain ⟨c₀, hc₀⟩ : ∃ c₀, stF.dist[to_node]? = some c₀ := by
      have h := List.getElem?_eq_getElem (l := stF.dist) (n := to_node)
        (by rw [Q.hdl]; exact hto)
      exact ⟨_, h⟩
    cases c₀ with
    | none =>
        have hsp : g.shortest_path from_node to_node = some none := by
          unfold Graph.shortest_path
          rw [if_pos hfrom]
          dsimp only
          rw [hloop]
          dsimp only
          rw [hc₀]
        rw [hsp]
        simp
    | some d =>
        obtain ⟨p, hp⟩ := hbuild d hc₀
        have hsp : g.shortest_path from_node to_node = some (some ⟨p, d⟩) := by
          unfold Graph.shortest_path
          rw [if_pos hfrom]
          dsimp only
          rw [hloop]
          dsimp only
          rw [hc₀]
          dsimp only
          rw [hp]
        rw [hsp]
        simp

/-- Concrete instance of C10's no-panic guarantee at the scenario graph. -/
theorem claim_C10_witness : scenarioGraph.shortest_path 0 3 ≠ none :=
  (claim_C10 scenarioGraph 0 3 (by constructor <;> decide) (by decide)
    (by decide)).2

end DijkstraClaims

end RustGraph
